import Mathlib

/-!
# Verification of SistemaJuanchOS core components

Shallow embedding of the two algorithmic components of the repository:

* the best-fit memory allocator with coalescing of adjacent free blocks
  (`src/kernel/memory_manager.py`), and
* the path-addressed virtual file store with JSON-shaped serialization
  (`src/core/file_system.py`).

Python integers are modelled as `Int`, Python lists as `List`, Python
dicts as ordered association lists (Python dicts preserve insertion order
and have unique keys).  A `datetime` value never influences control flow
in the allocator, so `allocated_at` is modelled as `Option Unit`
(presence of a timestamp); in the file store timestamps are carried as
the strings produced by `isoformat`, whose round trip with
`fromisoformat` is the identity.
-/

namespace JuanchOS

/-- Embeds the dataclass `MemoryBlock` of `memory_manager.py`. -/
structure MemoryBlock where
  start : Int
  size : Int
  is_free : Bool
  process_id : Option Int := none
  allocated_at : Option Unit := none
deriving DecidableEq

/-- Embeds the mutable state of class `MemoryManager`. `process_memory`
maps a process id to the list of blocks it owns; a block reference in
the Python list is represented by the block's start address (the start
of an allocated block is stable and unique while it is allocated). -/
structure MemoryManager where
  total_memory : Int
  used_memory : Int
  memory_blocks : List MemoryBlock
  process_memory : List (Int × List Int)
deriving DecidableEq

/-- Embeds `MemoryManager.__init__`. -/
def MemoryManager.init (total_memory : Int) : MemoryManager :=
  { total_memory := total_memory
    used_memory := 0
    memory_blocks := [⟨0, total_memory, true, none, none⟩]
    process_memory := [] }

/-- Dict lookup on the `process_memory` association list. -/
def pmLookup : List (Int × List Int) → Int → Option (List Int)
  | [], _ => none
  | kv :: rest, pid => if kv.1 = pid then some kv.2 else pmLookup rest pid

/-- Embeds `self.process_memory[process_id].append(block)` preceded by the
creation of an empty entry when the key is absent. -/
def pmAddStart (pm : List (Int × List Int)) (pid : Int) (s : Int) :
    List (Int × List Int) :=
  match pmLookup pm pid with
  | none => pm ++ [(pid, [s])]
  | some _ => pm.map (fun kv => if kv.1 = pid then (kv.1, kv.2 ++ [s]) else kv)

/-- Embeds `del self.process_memory[process_id]`. -/
def pmErase (pm : List (Int × List Int)) (pid : Int) : List (Int × List Int) :=
  pm.filter (fun kv => kv.1 != pid)

/-- The best-fit scan of `MemoryManager.allocate_memory`: iterate over the
blocks with their indices, keeping the free block of smallest waste seen
so far (`none` plays the role of the initial `min_waste = inf`,
and a candidate replaces the current best only when its waste is
strictly smaller, so the first of equally wasteful blocks is kept). -/
def bestFitAux (size : Int) : List MemoryBlock → Nat →
    Option (Nat × MemoryBlock) → Option (Nat × MemoryBlock)
  | [], _, best => best
  | b :: rest, i, best =>
    let best' :=
      if b.is_free ∧ size ≤ b.size then
        match best with
        | none => some (i, b)
        | some (j, bj) =>
          if b.size - size < bj.size - size then some (i, b) else some (j, bj)
      else best
    bestFitAux size rest (i + 1) best'

/-- The whole best-fit loop of `MemoryManager.allocate_memory`. -/
def bestFit (blocks : List MemoryBlock) (size : Int) : Option (Nat × MemoryBlock) :=
  bestFitAux size blocks 0 none

/-- Embeds `MemoryManager.allocate_memory`.  Returns the Python return
value together with the state after the call. -/
def allocate_memory (m : MemoryManager) (process_id size : Int) :
    Option Int × MemoryManager :=
  if size ≤ 0 ∨ m.total_memory < size then (none, m)
  else
    match bestFit m.memory_blocks size with
    | none => (none, m)
    | some (i, b) =>
      let sized : MemoryBlock := if size < b.size then { b with size := size } else b
      let allocated : MemoryBlock :=
        { sized with is_free := false, process_id := some process_id,
                     allocated_at := some () }
      let blocks' :=
        if size < b.size then
          (m.memory_blocks.set i allocated).insertIdx (i + 1)
            ⟨b.start + size, b.size - size, true, none, none⟩
        else m.memory_blocks.set i allocated
      (some b.start,
        { m with memory_blocks := blocks'
                 used_memory := m.used_memory + size
                 process_memory := pmAddStart m.process_memory process_id b.start })

/-- One step of `MemoryManager._compact_free_blocks`: `current` is the
block at the loop index `i`, the list argument holds the blocks after
it.  When `current` and the next block are both free they are merged
(`current.size += next.size`; the next block is popped and the loop
stays at `i`), otherwise the loop advances (`i += 1`). -/
def compactAux (current : MemoryBlock) : List MemoryBlock → List MemoryBlock
  | [] => [current]
  | b :: rest =>
    if current.is_free ∧ b.is_free then
      compactAux { current with size := current.size + b.size } rest
    else current :: compactAux b rest

/-- Embeds `MemoryManager._compact_free_blocks` (the whole `while` loop,
starting at index `0`). -/
def compactFreeBlocks : List MemoryBlock → List MemoryBlock
  | [] => []
  | a :: rest => compactAux a rest

/-- Sum of the sizes of the blocks registered to a process, i.e. of the
blocks whose start address appears in the process's entry; this is the
total subtracted from `used_memory` by the loop in
`MemoryManager.deallocate_memory`. -/
def inSum (starts : List Int) : List MemoryBlock → Int
  | [] => 0
  | b :: rest => (if b.start ∈ starts then b.size else 0) + inSum starts rest

/-- Embeds `MemoryManager.deallocate_memory`: free every block registered
to the process, subtract their sizes from `used_memory`, drop the
process's entry, then compact adjacent free blocks. -/
def deallocate_memory (m : MemoryManager) (process_id : Int) :
    Bool × MemoryManager :=
  match pmLookup m.process_memory process_id with
  | none => (false, m)
  | some starts =>
    let blocks₁ := m.memory_blocks.map (fun b =>
      if b.start ∈ starts then
        { b with is_free := true, process_id := none, allocated_at := none }
      else b)
    (true,
      { m with memory_blocks := compactFreeBlocks blocks₁
               used_memory := m.used_memory - inSum starts m.memory_blocks
               process_memory := pmErase m.process_memory process_id })

/-- Sum of the sizes of the free blocks (`total_free` in
`MemoryManager.get_memory_usage`). -/
def freeSum : List MemoryBlock → Int
  | [] => 0
  | b :: rest => (if b.is_free then b.size else 0) + freeSum rest

/-- Sum of the sizes of the allocated blocks. -/
def allocSum : List MemoryBlock → Int
  | [] => 0
  | b :: rest => (if b.is_free then 0 else b.size) + allocSum rest

/-- Sum of all block sizes. -/
def sumSizes : List MemoryBlock → Int
  | [] => 0
  | b :: rest => b.size + sumSizes rest

/-- Sum of the sizes of the blocks owned by a given process. -/
def ownedSum (pid : Int) : List MemoryBlock → Int
  | [] => 0
  | b :: rest => (if b.process_id = some pid then b.size else 0) + ownedSum pid rest

/-- The dictionary returned by `MemoryManager.get_memory_usage`. -/
structure MemoryUsage where
  total_memory : Int
  used_memory : Int
  free_memory : Int
  total_blocks : Nat
  free_blocks : Nat
  allocated_blocks : Nat
deriving DecidableEq

/-- Embeds `MemoryManager.get_memory_usage`. -/
def get_memory_usage (m : MemoryManager) : MemoryUsage :=
  { total_memory := m.total_memory
    used_memory := m.used_memory
    free_memory := freeSum m.memory_blocks
    total_blocks := m.memory_blocks.length
    free_blocks := (m.memory_blocks.filter (fun b => b.is_free)).length
    allocated_blocks := (m.memory_blocks.filter (fun b => !b.is_free)).length }

/-- `covers l f t`: the blocks of `l` tile the address range `[f, t)`
contiguously — each block starts where the previous one ended, the
first one starts at `f`, and the last one ends at `t`. -/
def covers : List MemoryBlock → Int → Int → Prop
  | [], f, t => t = f
  | b :: rest, f, t => b.start = f ∧ covers rest (f + b.size) t

/-- The states reachable from a freshly constructed
`MemoryManager(total_memory)` by any sequence of `allocate_memory` and
`deallocate_memory` calls. -/
inductive Reach (total : Int) : MemoryManager → Prop where
  | init : Reach total (MemoryManager.init total)
  | alloc (m : MemoryManager) (pid size : Int) :
      Reach total m → Reach total (allocate_memory m pid size).2
  | dealloc (m : MemoryManager) (pid : Int) :
      Reach total m → Reach total (deallocate_memory m pid).2

/-- The inductive invariant of the allocator.  `idx` states that the
owner→blocks index and the `process_id` tags agree: a start address is
registered under a process exactly when some block with that start is
owned by the process. -/
structure Inv (total : Int) (m : MemoryManager) : Prop where
  total_eq : m.total_memory = total
  cov : covers m.memory_blocks 0 total
  pos : 0 < total → ∀ b ∈ m.memory_blocks, 0 < b.size
  degenerate : total ≤ 0 → m = MemoryManager.init total
  used_eq : m.used_memory = allocSum m.memory_blocks
  freeClean : ∀ b ∈ m.memory_blocks, b.is_free = true →
      b.process_id = none ∧ b.allocated_at = none
  idx : ∀ (p s : Int),
      (∃ starts, pmLookup m.process_memory p = some starts ∧ s ∈ starts) ↔
      (∃ b ∈ m.memory_blocks, b.start = s ∧ b.process_id = some p)
  idx_nonempty : ∀ (p : Int) (starts : List Int),
      pmLookup m.process_memory p = some starts → starts ≠ []

/-- A block eligible for a request of `size`: free and large enough
(the condition of the best-fit scan). -/
def cand (size : Int) (b : MemoryBlock) : Prop :=
  b.is_free = true ∧ size ≤ b.size

/-- Loop invariant of the best-fit scan: `acc` is the best candidate
among the first `n` blocks of `full` (no candidate yet when `none`), and
it beats every earlier candidate strictly (the scan replaces the best
only on strictly smaller waste). -/
def accInv (size : Int) (full : List MemoryBlock) (n : Nat) :
    Option (Nat × MemoryBlock) → Prop
  | none => ∀ j bj, j < n → full[j]? = some bj → ¬cand size bj
  | some (j, bj) =>
      j < n ∧ full[j]? = some bj ∧ cand size bj ∧
      (∀ k bk, k < n → full[k]? = some bk → cand size bk → bj.size ≤ bk.size) ∧
      (∀ k bk, k < j → full[k]? = some bk → cand size bk → bj.size < bk.size)

/-- What the best-fit scan returns: no candidate at all, or the
first candidate of minimal size. -/
def outSpec (size : Int) (full : List MemoryBlock) :
    Option (Nat × MemoryBlock) → Prop
  | none => ∀ (j : Nat) (bj : MemoryBlock), full[j]? = some bj → ¬cand size bj
  | some (j, bj) =>
      full[j]? = some bj ∧ cand size bj ∧
      (∀ (k : Nat) (bk : MemoryBlock), full[k]? = some bk → cand size bk → bj.size ≤ bk.size) ∧
      (∀ (k : Nat) (bk : MemoryBlock), k < j → full[k]? = some bk → cand size bk → bj.size < bk.size)

/-! ## The virtual file store (`src/core/file_system.py`)

`File` and `Directory` are embedded as the two constructors of
`FsNode`; a directory's `items` dict is an ordered association list
(`FsItems`).  Timestamps are carried as the strings produced by
`datetime.isoformat` (its round trip with `fromisoformat` is the
identity, so serialization of a timestamp is modelled as the identity
on that string). -/

mutual

/-- Embeds the classes `File` (fields `name`, `content`, `created_at`,
`modified_at`, `size`, `permissions`) and `Directory` (fields `name`,
`created_at`, `modified_at`, `items`, `permissions`). -/
inductive FsNode where
  | file (name content created_at modified_at : String) (size : Nat)
      (permissions : String)
  | dir (name created_at modified_at : String) (items : FsItems)
      (permissions : String)

/-- The ordered `items` dict of a `Directory`. -/
inductive FsItems where
  | nil
  | cons (key : String) (node : FsNode) (rest : FsItems)

end

/-- Dict lookup in a directory's `items`. -/
def itemsLookup : FsItems → String → Option FsNode
  | .nil, _ => none
  | .cons k v rest, key => if k = key then some v else itemsLookup rest key

/-- Dict assignment `items[key] = node` for a key that is present
(replaces the entry in place, keeping the order). -/
def itemsReplace : FsItems → String → FsNode → FsItems
  | .nil, _, _ => .nil
  | .cons k v rest, key, nv =>
    if k = key then .cons k nv rest else .cons k v (itemsReplace rest key nv)

/-- `True` for a `Directory` node (`isinstance(x, Directory)`). -/
def isDir : FsNode → Bool
  | .dir .. => true
  | .file .. => false

/-- `True` for a `File` node (`isinstance(x, File)`). -/
def isFile : FsNode → Bool
  | .file .. => true
  | .dir .. => false

/-- Python `str.strip("/")` on the character list: drop every leading
and trailing `'/'`. -/
def stripSlashChars (cs : List Char) : List Char :=
  ((cs.dropWhile (· = '/')).reverse.dropWhile (· = '/')).reverse

/-- Python `str.split("/")`: cut at every `'/'`, keeping empty
segments; the empty string yields `[[]]`. -/
def splitSlash : List Char → List (List Char)
  | [] => [[]]
  | c :: rest =>
    match splitSlash rest with
    | seg :: tl => if c = '/' then [] :: seg :: tl else (c :: seg) :: tl
    | [] => [[c]]

/-- Embeds `path.strip("/").split("/")` from `FileSystem.get_item`. -/
def splitPath (path : String) : List String :=
  (splitSlash (stripSlashChars path.toList)).map (fun seg => String.mk seg)

/-- The resolution loop of `FileSystem.get_item`: step through the
child mappings.  `error ()` is the `AttributeError` Python raises when
the walk reaches a `File` and asks for its `items`; `ok none` is the
`return None` for a missing segment. -/
def walkItems : FsNode → List String → Except Unit (Option FsNode)
  | node, [] => .ok (some node)
  | .file .., _ :: _ => .error ()
  | .dir _ _ _ items _, part :: rest =>
    match itemsLookup items part with
    | none => .ok none
    | some child => walkItems child rest

/-- Embeds `FileSystem.get_item`. -/
def getItem (root : FsNode) (path : String) : Except Unit (Option FsNode) :=
  if path = "/" then .ok (some root)
  else walkItems root (splitPath path)

/-- The failure modes of the file-store operations.  Python raises
`ValueError` with distinct messages (directory not found / file not
found / not a file); `attrError` is the `AttributeError` escaping from
`get_item` when a path segment is looked up inside a `File`. -/
inductive FsErr where
  | attrError
  | dirNotFound
  | fileNotFound
  | notAFile
deriving DecidableEq

/-- Embeds `FileSystem.read_file`. -/
def read_file (root : FsNode) (directory name : String) : Except FsErr String :=
  match getItem root directory with
  | .error _ => .error .attrError
  | .ok none => .error .dirNotFound
  | .ok (some (.file ..)) => .error .dirNotFound
  | .ok (some (.dir _ _ _ items _)) =>
    match itemsLookup items name with
    | none => .error .fileNotFound
    | some (.file _ content _ _ _ _) => .ok content
    | some (.dir ..) => .error .notAFile

/-- The body of `FileSystem.write_file` once the parent directory is in
hand: overwrite the file's `content`, recompute `size`, stamp
`modified_at` on the file and on the parent. -/
def writeInDir (name content now : String) : FsNode → Except FsErr FsNode
  | .file .. => .error .dirNotFound
  | .dir dn dc _ items dp =>
    match itemsLookup items name with
    | none => .error .fileNotFound
    | some (.dir ..) => .error .notAFile
    | some (.file fn _ fcr _ _ fpm) =>
      .ok (.dir dn dc now
        (itemsReplace items name (.file fn content fcr now content.length fpm)) dp)

/-- Rebuild the tree along a resolved path: the functional rendering of
Python's in-place mutation of the node `get_item` returns.  A missing
segment yields the `DirectoryNotFound` failure of the calling
operation, a segment looked up inside a `File` the `AttributeError`. -/
def updateAtPath (node : FsNode) (parts : List String)
    (f : FsNode → Except FsErr FsNode) : Except FsErr FsNode :=
  match parts with
  | [] => f node
  | part :: rest =>
    match node with
    | .file .. => .error .attrError
    | .dir n c m items p =>
      match itemsLookup items part with
      | none => .error .dirNotFound
      | some child =>
        match updateAtPath child rest f with
        | .error e => .error e
        | .ok child' => .ok (.dir n c m (itemsReplace items part child') p)

/-- Embeds `FileSystem.write_file` (`now` is the value of
`datetime.now().isoformat()` during the call); returns the new tree. -/
def write_file (root : FsNode) (directory name content now : String) :
    Except FsErr FsNode :=
  if directory = "/" then writeInDir name content now root
  else updateAtPath root (splitPath directory) (writeInDir name content now)

/-- Embeds the `".."` branch of `FileSystem.change_directory`:
`parts = current.strip("/").split("/")`, and the result is
`"/" + "/".join(parts[:-1])` when there is more than one part, `"/"`
otherwise. -/
def joinSegs : List String → String
  | [] => ""
  | [s] => s
  | s :: rest => s ++ "/" ++ joinSegs rest

/-- The path returned by `change_directory` for target `".."`. -/
def parentOf (current : String) : String :=
  let parts := splitPath current
  if 1 < parts.length then "/" ++ joinSegs parts.dropLast else "/"

/-- Python `target.startswith("/")`. -/
def startsWithSlash (s : String) : Bool :=
  match s.toList with
  | '/' :: _ => true
  | _ => false

/-- `os.path.join(current, target)` for a `target` that does not start
with `"/"`. -/
def joinPath (current target : String) : String :=
  if current = "" then target
  else if current.toList.getLast? = some '/' then current ++ target
  else current ++ "/" ++ target

/-- Embeds `FileSystem.change_directory`. -/
def change_directory (root : FsNode) (current target : String) :
    Except FsErr String :=
  if target = ".." then .ok (parentOf current)
  else
    let new_path := if startsWithSlash target then target else joinPath current target
    match getItem root new_path with
    | .error _ => .error .attrError
    | .ok (some (.dir ..)) => .ok new_path
    | .ok _ => .error .dirNotFound

/-! ## Serialization (`to_dict` / `from_dict`)

The JSON documents produced by `File.to_dict` and `Directory.to_dict`
(and written by `FileSystem.save`, re-read by `FileSystem.load`). -/

mutual

/-- A JSON value as produced by `to_dict`: strings (names, contents,
timestamps, permissions), numbers (sizes) and objects. -/
inductive Json where
  | str (s : String)
  | num (n : Nat)
  | obj (fields : JsonFields)

/-- The ordered key/value pairs of a JSON object. -/
inductive JsonFields where
  | nil
  | cons (key : String) (val : Json) (rest : JsonFields)

end

/-- Lookup `fields[key]` in a JSON object. -/
def jsonLookup : JsonFields → String → Option Json
  | .nil, _ => none
  | .cons k v rest, key => if k = key then some v else jsonLookup rest key

/-- Python `"content" in item_data`: the discrimination
`Directory.from_dict` uses to rebuild a child as a `File` or as a
`Directory`. -/
def hasContentKey : Json → Bool
  | .obj fields => (jsonLookup fields "content").isSome
  | _ => false

mutual

/-- Embeds `File.to_dict` and `Directory.to_dict`. -/
def FsNode.to_dict : FsNode → Json
  | .file name content created modified size permissions =>
    .obj (.cons "name" (.str name) (.cons "content" (.str content)
      (.cons "created_at" (.str created) (.cons "modified_at" (.str modified)
        (.cons "size" (.num size) (.cons "permissions" (.str permissions) .nil))))))
  | .dir name created modified items permissions =>
    .obj (.cons "name" (.str name) (.cons "created_at" (.str created)
      (.cons "modified_at" (.str modified) (.cons "items" (.obj (itemsToDict items))
        (.cons "permissions" (.str permissions) .nil)))))

/-- The `items` comprehension of `Directory.to_dict`. -/
def itemsToDict : FsItems → JsonFields
  | .nil => .nil
  | .cons k v rest => .cons k (FsNode.to_dict v) (itemsToDict rest)

end

/-- Embeds `File.from_dict`: rebuild a `File`, overwriting the derived
`created_at`/`modified_at`/`size`/`permissions` with the stored ones. -/
def FileFromDict (j : Json) : Option FsNode :=
  match j with
  | .obj fields =>
    match jsonLookup fields "name", jsonLookup fields "content",
        jsonLookup fields "created_at", jsonLookup fields "modified_at",
        jsonLookup fields "size", jsonLookup fields "permissions" with
    | some (.str n), some (.str c), some (.str cr), some (.str mo),
        some (.num sz), some (.str pm) => some (.file n c cr mo sz pm)
    | _, _, _, _, _, _ => none
  | _ => none

mutual

/-- Embeds `Directory.from_dict`: rebuild the directory header, then
rebuild every entry of `data["items"]` (a child with a `"content"` key
becomes a `File`, any other child a `Directory`). -/
def DirectoryFromDict : Json → Option FsNode
  | .obj fields =>
    match jsonLookup fields "name", jsonLookup fields "created_at",
        jsonLookup fields "modified_at", jsonLookup fields "permissions" with
    | some (.str n), some (.str cr), some (.str mo), some (.str pm) =>
      match findItems fields with
      | some its => some (.dir n cr mo its pm)
      | none => none
    | _, _, _, _ => none
  | _ => none

/-- `data["items"]` fused with the loop that rebuilds it: find the
`"items"` key and deserialize the object stored there (the fusion keeps
the recursion structural; it computes exactly
`itemsFromDict` of `jsonLookup fields "items"`). -/
def findItems : JsonFields → Option FsItems
  | .nil => none
  | .cons k v rest =>
    if k = "items" then
      match v with
      | .obj fj => itemsFromDict fj
      | _ => none
    else findItems rest

/-- The loop `for name, item_data in data["items"].items()` of
`Directory.from_dict`. -/
def itemsFromDict : JsonFields → Option FsItems
  | .nil => some .nil
  | .cons k v rest =>
    match (if hasContentKey v then FileFromDict v else DirectoryFromDict v),
        itemsFromDict rest with
    | some node, some its => some (.cons k node its)
    | _, _ => none

end

/-! ### Lemmas: the best-fit scan -/

theorem bestFitAux_eq_none (size : Int) :
    ∀ (l : List MemoryBlock) (i : Nat) (acc : Option (Nat × MemoryBlock)),
      bestFitAux size l i acc = none ↔
        (acc = none ∧ ∀ b ∈ l, ¬cand size b) := by
  intro l
  induction l with
  | nil => intro i acc; simp [bestFitAux]
  | cons b rest ih =>
    intro i acc
    by_cases hc : b.is_free = true ∧ size ≤ b.size
    · cases acc with
      | none =>
        have : bestFitAux size (b :: rest) i none =
            bestFitAux size rest (i + 1) (some (i, b)) := by
          simp [bestFitAux, hc.1, hc.2]
        rw [this, ih]
        constructor
        · rintro ⟨h, -⟩; exact absurd h (by simp)
        · rintro ⟨-, hall⟩; exact absurd (hall b (by simp)) (fun h => h hc)
      | some jb =>
        obtain ⟨j, bj⟩ := jb
        have : bestFitAux size (b :: rest) i (some (j, bj)) =
            bestFitAux size rest (i + 1)
              (if b.size - size < bj.size - size then some (i, b) else some (j, bj)) := by
          simp [bestFitAux, hc.1, hc.2]
        rw [this, ih]
        constructor
        · rintro ⟨h, -⟩
          split at h <;> simp_all
        · rintro ⟨-, hall⟩; exact absurd (hall b (by simp)) (fun h => h hc)
    · have : bestFitAux size (b :: rest) i acc = bestFitAux size rest (i + 1) acc := by
        simp only [bestFitAux]
        rw [if_neg hc]
      rw [this, ih]
      constructor
      · rintro ⟨h1, h2⟩
        refine ⟨h1, ?_⟩
        intro x hx
        rcases List.mem_cons.mp hx with rfl | hx
        · exact fun h => hc h
        · exact h2 x hx
      · rintro ⟨h1, h2⟩
        exact ⟨h1, fun x hx => h2 x (List.mem_cons_of_mem _ hx)⟩

theorem bestFitAux_spec_done (size : Int) (full : List MemoryBlock) (n : Nat)
    (acc : Option (Nat × MemoryBlock)) (hle : full.length ≤ n)
    (hinv : accInv size full n acc) : outSpec size full acc := by
  cases acc with
  | none =>
    intro j bj hj
    have hjlen : j < full.length := by
      obtain ⟨h1, -⟩ := List.getElem?_eq_some.mp hj; exact h1
    exact hinv j bj (by omega) hj
  | some jb =>
    obtain ⟨j, bj⟩ := jb
    obtain ⟨hjn, hj, hc, hmin, hstrict⟩ := hinv
    refine ⟨hj, hc, ?_, hstrict⟩
    intro k bk hk hck
    have hklen : k < full.length := by
      obtain ⟨h1, -⟩ := List.getElem?_eq_some.mp hk; exact h1
    exact hmin k bk (by omega) hk hck

theorem bestFitAux_spec_fuel (size : Int) (full : List MemoryBlock) :
    ∀ (fuel n : Nat) (acc : Option (Nat × MemoryBlock)),
      full.length ≤ n + fuel → accInv size full n acc →
      outSpec size full (bestFitAux size (full.drop n) n acc) := by
  intro fuel
  induction fuel with
  | zero =>
    intro n acc hle hinv
    rw [List.drop_eq_nil_of_le (by omega)]
    show outSpec size full (bestFitAux size [] n acc)
    exact bestFitAux_spec_done size full n acc (by omega) hinv
  | succ f ih =>
    intro n acc hle hinv
    cases hd : full.drop n with
    | nil =>
      have hlen : full.length ≤ n := by
        by_contra h
        have : full.drop n ≠ [] := by
          apply List.ne_nil_of_length_pos
          rw [List.length_drop]; omega
        exact this hd
      show outSpec size full (bestFitAux size [] n acc)
      exact bestFitAux_spec_done size full n acc hlen hinv
    | cons b rest =>
      have hn : n < full.length := by
        by_contra h
        rw [List.drop_eq_nil_of_le (by omega)] at hd
        exact List.noConfusion hd
      have hb : full[n]? = some b := by
        have h0 := List.getElem?_drop full n 0
        rw [hd] at h0
        simpa using h0.symm
      have hrest : rest = full.drop (n + 1) := by
        have h1 : (full.drop n).drop 1 = full.drop (n + 1) := List.drop_drop 1 n full
        rw [hd] at h1
        simpa using h1
      by_cases hc : b.is_free = true ∧ size ≤ b.size
      · cases acc with
        | none =>
          have hstep : bestFitAux size (b :: rest) n none =
              bestFitAux size rest (n + 1) (some (n, b)) := by
            simp [bestFitAux, hc.1, hc.2]
          rw [hstep, hrest]
          apply ih (n + 1) (some (n, b)) (by omega)
          refine ⟨by omega, hb, hc, ?_, ?_⟩
          · intro k bk hk hkk hck
            rcases Nat.lt_succ_iff_lt_or_eq.mp hk with hk' | rfl
            · exact absurd hck (hinv k bk hk' hkk)
            · rw [hb] at hkk
              injection hkk with h
              rw [← h]
          · intro k bk hkn hkk hck
            exact absurd hck (hinv k bk (by omega) hkk)
        | some jb =>
          obtain ⟨j, bj⟩ := jb
          obtain ⟨hjn, hj, hcj, hmin, hstrict⟩ := hinv
          by_cases hcmp : b.size - size < bj.size - size
          · have hstep : bestFitAux size (b :: rest) n (some (j, bj)) =
                bestFitAux size rest (n + 1) (some (n, b)) := by
              simp [bestFitAux, hc.1, hc.2, hcmp]
            rw [hstep, hrest]
            apply ih (n + 1) (some (n, b)) (by omega)
            refine ⟨by omega, hb, hc, ?_, ?_⟩
            · intro k bk hk hkk hck
              rcases Nat.lt_succ_iff_lt_or_eq.mp hk with hk' | rfl
              · have := hmin k bk hk' hkk hck
                omega
              · rw [hb] at hkk
                injection hkk with h
                rw [← h]
            · intro k bk hkn hkk hck
              have := hmin k bk (by omega) hkk hck
              omega
          · have hstep : bestFitAux size (b :: rest) n (some (j, bj)) =
                bestFitAux size rest (n + 1) (some (j, bj)) := by
              simp [bestFitAux, hc.1, hc.2, hcmp]
            rw [hstep, hrest]
            apply ih (n + 1) (some (j, bj)) (by omega)
            refine ⟨by omega, hj, hcj, ?_, hstrict⟩
            intro k bk hk hkk hck
            rcases Nat.lt_succ_iff_lt_or_eq.mp hk with hk' | rfl
            · exact hmin k bk hk' hkk hck
            · rw [hb] at hkk
              injection hkk with h
              rw [← h]
              omega
      · have hstep : bestFitAux size (b :: rest) n acc =
            bestFitAux size rest (n + 1) acc := by
          simp only [bestFitAux]
          rw [if_neg hc]
        rw [hstep, hrest]
        apply ih (n + 1) acc (by omega)
        cases acc with
        | none =>
          intro j bj hjn hjj
          rcases Nat.lt_succ_iff_lt_or_eq.mp hjn with hj' | rfl
          · exact hinv j bj hj' hjj
          · rw [hb] at hjj
            injection hjj with h
            rw [← h]
            exact hc
        | some jb =>
          obtain ⟨j, bj⟩ := jb
          obtain ⟨hjn, hj, hcj, hmin, hstrict⟩ := hinv
          refine ⟨by omega, hj, hcj, ?_, hstrict⟩
          intro k bk hk hkk hck
          rcases Nat.lt_succ_iff_lt_or_eq.mp hk with hk' | rfl
          · exact hmin k bk hk' hkk hck
          · rw [hb] at hkk
            injection hkk with h
            rw [← h] at hck
            exact absurd hck hc

theorem bestFit_spec (blocks : List MemoryBlock) (size : Int) :
    outSpec size blocks (bestFit blocks size) := by
  have h := bestFitAux_spec_fuel size blocks blocks.length 0 none (by omega)
    (by intro j bj hj; omega)
  simpa [bestFit] using h

/-! ### Lemmas: the process index -/

theorem pmLookup_append (pm₁ pm₂ : List (Int × List Int)) (p : Int) :
    pmLookup (pm₁ ++ pm₂) p =
      (match pmLookup pm₁ p with
       | some l => some l
       | none => pmLookup pm₂ p) := by
  induction pm₁ with
  | nil => simp [pmLookup]
  | cons kv rest ih =>
    rw [List.cons_append]
    simp only [pmLookup]
    split
    · rfl
    · exact ih

theorem pmLookup_map_update (pm : List (Int × List Int)) (pid p : Int)
    (g : List Int → List Int) (hne : p ≠ pid) :
    pmLookup (pm.map (fun kv => if kv.1 = pid then (kv.1, g kv.2) else kv)) p =
      pmLookup pm p := by
  induction pm with
  | nil => rfl
  | cons kv rest ih =>
    simp only [List.map_cons, pmLookup]
    by_cases hk : kv.1 = pid
    · rw [if_pos hk]
      simp only [pmLookup]
      rw [if_neg (by rw [hk]; exact fun hh => hne hh.symm),
        if_neg (by rw [hk]; exact fun hh => hne hh.symm)]
      exact ih
    · rw [if_neg hk]
      split
      · rfl
      · exact ih

theorem pmLookup_map_update_self (pm : List (Int × List Int)) (pid : Int)
    (g : List Int → List Int) :
    pmLookup (pm.map (fun kv => if kv.1 = pid then (kv.1, g kv.2) else kv)) pid =
      (match pmLookup pm pid with
       | some l => some (g l)
       | none => none) := by
  induction pm with
  | nil => rfl
  | cons kv rest ih =>
    simp only [List.map_cons, pmLookup]
    by_cases hk : kv.1 = pid
    · rw [if_pos hk]
      simp only [pmLookup]
      rw [if_pos hk, if_pos hk]
    · rw [if_neg hk]
      rw [if_neg hk, if_neg hk]
      exact ih

theorem pmLookup_addStart_self (pm : List (Int × List Int)) (pid : Int) (s : Int) :
    pmLookup (pmAddStart pm pid s) pid =
      some ((match pmLookup pm pid with | none => [] | some l => l) ++ [s]) := by
  unfold pmAddStart
  cases h : pmLookup pm pid with
  | none =>
    rw [pmLookup_append, h]
    simp [pmLookup]
  | some l =>
    rw [pmLookup_map_update_self pm pid (fun v => v ++ [s]), h]

theorem pmLookup_addStart_other (pm : List (Int × List Int)) (pid p s : Int)
    (hne : p ≠ pid) : pmLookup (pmAddStart pm pid s) p = pmLookup pm p := by
  unfold pmAddStart
  cases h : pmLookup pm pid with
  | none =>
    rw [pmLookup_append]
    cases h2 : pmLookup pm p with
    | none =>
      simp only [pmLookup]
      rw [if_neg (fun hh => hne hh.symm)]
    | some l2 => rfl
  | some l =>
    exact pmLookup_map_update pm pid p (fun v => v ++ [s]) hne

theorem pmLookup_erase_self (pm : List (Int × List Int)) (pid : Int) :
    pmLookup (pmErase pm pid) pid = none := by
  unfold pmErase
  induction pm with
  | nil => simp [pmLookup]
  | cons kv rest ih =>
    by_cases hk : kv.1 = pid
    · rw [List.filter_cons_of_neg (by simp [hk])]
      exact ih
    · rw [List.filter_cons_of_pos (by simp [hk])]
      simp only [pmLookup]
      rw [if_neg hk]
      exact ih

theorem pmLookup_erase_other (pm : List (Int × List Int)) (pid p : Int)
    (hne : p ≠ pid) : pmLookup (pmErase pm pid) p = pmLookup pm p := by
  unfold pmErase
  induction pm with
  | nil => simp
  | cons kv rest ih =>
    by_cases hk : kv.1 = pid
    · rw [List.filter_cons_of_neg (by simp [hk])]
      simp only [pmLookup]
      rw [if_neg (by rw [hk]; exact fun hh => hne hh.symm)]
      exact ih
    · rw [List.filter_cons_of_pos (by simp [hk])]
      simp only [pmLookup]
      split
      · rfl
      · exact ih

/-! ### Lemmas: covering the address space -/

theorem covers_append_iff (l₁ l₂ : List MemoryBlock) (f t : Int) :
    covers (l₁ ++ l₂) f t ↔ ∃ mid, covers l₁ f mid ∧ covers l₂ mid t := by
  induction l₁ generalizing f with
  | nil =>
    simp only [List.nil_append, covers]
    constructor
    · intro h; exact ⟨f, rfl, h⟩
    · rintro ⟨mid, rfl, h⟩; exact h
  | cons b rest ih =>
    constructor
    · rintro ⟨hb, h2⟩
      have h2a : covers (rest ++ l₂) (f + b.size) t := h2
      rw [ih] at h2a
      obtain ⟨mid, h3, h4⟩ := h2a
      exact ⟨mid, ⟨hb, h3⟩, h4⟩
    · rintro ⟨mid, ⟨hb, h3⟩, h4⟩
      exact ⟨hb, (ih (f + b.size)).mpr ⟨mid, h3, h4⟩⟩

theorem covers_sum (l : List MemoryBlock) (f t : Int) (h : covers l f t) :
    t = f + sumSizes l := by
  induction l generalizing f with
  | nil => simpa [covers, sumSizes] using h
  | cons b rest ih =>
    obtain ⟨-, h2⟩ := h
    have := ih (f + b.size) h2
    simp only [sumSizes]
    omega

theorem sumSizes_nonneg (l : List MemoryBlock) (h : ∀ b ∈ l, 0 < b.size) :
    0 ≤ sumSizes l := by
  induction l with
  | nil => simp [sumSizes]
  | cons b rest ih =>
    have hb := h b (by simp)
    have hr := ih (fun x hx => h x (List.mem_cons_of_mem _ hx))
    simp only [sumSizes]
    omega

theorem covers_bounds (l : List MemoryBlock) (f t : Int) (h : covers l f t)
    (hpos : ∀ b ∈ l, 0 < b.size) :
    ∀ b ∈ l, f ≤ b.start ∧ b.start + b.size ≤ t := by
  induction l generalizing f with
  | nil => simp
  | cons b rest ih =>
    obtain ⟨hb, h2⟩ := h
    intro x hx
    rcases List.mem_cons.mp hx with rfl | hx
    · have hsum := covers_sum rest (f + x.size) t h2
      have hnn := sumSizes_nonneg rest (fun y hy => hpos y (List.mem_cons_of_mem _ hy))
      omega
    · have := ih (f + b.size) h2 (fun y hy => hpos y (List.mem_cons_of_mem _ hy)) x hx
      have hbpos := hpos b (by simp)
      omega

theorem covers_chain (l : List MemoryBlock) (f t : Int) (h : covers l f t)
    (hpos : ∀ b ∈ l, 0 < b.size) :
    List.Chain' (fun a c => a.start < c.start) l := by
  induction l generalizing f with
  | nil => simp
  | cons b rest ih =>
    obtain ⟨hb, h2⟩ := h
    cases rest with
    | nil => simp
    | cons c rest2 =>
      rw [List.chain'_cons]
      constructor
      · obtain ⟨hc, -⟩ := h2
        have hbpos := hpos b (by simp)
        omega
      · exact ih (f + b.size) h2 (fun y hy => hpos y (List.mem_cons_of_mem _ hy))

theorem covers_map (φ : MemoryBlock → MemoryBlock) (l : List MemoryBlock) (f t : Int)
    (hφ : ∀ b, (φ b).start = b.start ∧ (φ b).size = b.size) :
    covers (l.map φ) f t ↔ covers l f t := by
  induction l generalizing f with
  | nil => simp
  | cons b rest ih =>
    simp only [List.map_cons, covers]
    rw [(hφ b).1, (hφ b).2, ih]

/-! ### Lemmas: compaction -/

theorem compactAux_covers (l : List MemoryBlock) :
    ∀ (current : MemoryBlock) (f t : Int), covers (current :: l) f t →
      covers (compactAux current l) f t := by
  induction l with
  | nil => intro current f t h; exact h
  | cons b rest ih =>
    intro current f t h
    obtain ⟨hc, hb, h2⟩ := h
    simp only [compactAux]
    split
    · apply ih
      refine ⟨hc, ?_⟩
      rw [Int.add_assoc] at h2
      exact h2
    · exact ⟨hc, ih b (f + current.size) t ⟨hb, h2⟩⟩

theorem compactFreeBlocks_covers (l : List MemoryBlock) (f t : Int)
    (h : covers l f t) : covers (compactFreeBlocks l) f t := by
  cases l with
  | nil => exact h
  | cons a rest => exact compactAux_covers rest a f t h

theorem compactAux_mem (l : List MemoryBlock) :
    ∀ (current : MemoryBlock), ∀ b' ∈ compactAux current l,
      ∃ b, (b = current ∨ b ∈ l) ∧ b'.start = b.start ∧ b'.is_free = b.is_free ∧
        b'.process_id = b.process_id ∧ b'.allocated_at = b.allocated_at := by
  induction l with
  | nil =>
    intro current b' hb'
    simp only [compactAux, List.mem_singleton] at hb'
    exact ⟨current, Or.inl rfl, by rw [hb'], by rw [hb'], by rw [hb'], by rw [hb']⟩
  | cons b rest ih =>
    intro current b' hb'
    simp only [compactAux] at hb'
    split at hb'
    · obtain ⟨x, hx, hs⟩ := ih _ b' hb'
      rcases hx with rfl | hx
      · exact ⟨current, Or.inl rfl, hs.1, hs.2.1, hs.2.2.1, hs.2.2.2⟩
      · exact ⟨x, Or.inr (List.mem_cons_of_mem _ hx), hs⟩
    · rcases List.mem_cons.mp hb' with rfl | hb'
      · exact ⟨b', Or.inl rfl, rfl, rfl, rfl, rfl⟩
      · obtain ⟨x, hx, hs⟩ := ih b b' hb'
        rcases hx with rfl | hx
        · exact ⟨x, Or.inr (by simp), hs⟩
        · exact ⟨x, Or.inr (List.mem_cons_of_mem _ hx), hs⟩

theorem compactAux_pos (l : List MemoryBlock) :
    ∀ (current : MemoryBlock), 0 < current.size → (∀ b ∈ l, 0 < b.size) →
      ∀ b' ∈ compactAux current l, 0 < b'.size := by
  induction l with
  | nil =>
    intro current hc _ b' hb'
    simp only [compactAux, List.mem_singleton] at hb'
    rw [hb']; exact hc
  | cons b rest ih =>
    intro current hc hl b' hb'
    simp only [compactAux] at hb'
    split at hb'
    · exact ih _ (by have := hl b (by simp); simp only []; omega)
        (fun x hx => hl x (List.mem_cons_of_mem _ hx)) b' hb'
    · rcases List.mem_cons.mp hb' with rfl | hb'
      · exact hc
      · exact ih b (hl b (by simp)) (fun x hx => hl x (List.mem_cons_of_mem _ hx)) b' hb'

theorem compactAux_filter (l : List MemoryBlock) :
    ∀ (current : MemoryBlock),
      (compactAux current l).filter (fun b => !b.is_free) =
        (current :: l).filter (fun b => !b.is_free) := by
  induction l with
  | nil => intro current; rfl
  | cons b rest ih =>
    intro current
    simp only [compactAux]
    split
    · rename_i hfree
      rw [ih]
      simp [List.filter_cons, hfree.1, hfree.2]
    · rename_i hfree
      by_cases hcf : current.is_free = true
      · have hbf : b.is_free = false := by
          cases hb : b.is_free
          · rfl
          · exact absurd ⟨hcf, hb⟩ hfree
        simp [List.filter_cons, ih b, hcf, hbf]
      · have hcf2 : current.is_free = false := by
          cases hc2 : current.is_free
          · rfl
          · exact absurd hc2 hcf
        simp [List.filter_cons, ih b, hcf2]

theorem compactAux_head (l : List MemoryBlock) :
    ∀ (current : MemoryBlock), ∃ y tl, compactAux current l = y :: tl ∧
      y.is_free = current.is_free := by
  induction l with
  | nil => intro current; exact ⟨current, [], rfl, rfl⟩
  | cons b rest ih =>
    intro current
    simp only [compactAux]
    split
    · obtain ⟨y, tl, heq, hfree⟩ := ih { current with size := current.size + b.size }
      exact ⟨y, tl, heq, hfree⟩
    · exact ⟨current, compactAux b rest, rfl, rfl⟩

theorem compactAux_chain (l : List MemoryBlock) :
    ∀ (current : MemoryBlock),
      List.Chain' (fun a c => ¬(a.is_free = true ∧ c.is_free = true))
        (compactAux current l) := by
  induction l with
  | nil => intro current; exact List.chain'_singleton current
  | cons b rest ih =>
    intro current
    simp only [compactAux]
    split
    · exact ih _
    · rename_i hfree
      obtain ⟨y, tl, heq, hyfree⟩ := compactAux_head rest b
      rw [heq, List.chain'_cons]
      refine ⟨?_, by rw [← heq]; exact ih b⟩
      rintro ⟨hcf, hyf⟩
      rw [hyfree] at hyf
      exact hfree ⟨hcf, hyf⟩

theorem compactFreeBlocks_chain (l : List MemoryBlock) :
    List.Chain' (fun a c => ¬(a.is_free = true ∧ c.is_free = true))
      (compactFreeBlocks l) := by
  cases l with
  | nil => simp [compactFreeBlocks]
  | cons a rest => exact compactAux_chain rest a

/-! ### Lemmas: size accounting -/

theorem allocSum_eq_filter (l : List MemoryBlock) :
    allocSum l = sumSizes (l.filter (fun b => !b.is_free)) := by
  induction l with
  | nil => rfl
  | cons b rest ih =>
    simp only [allocSum, List.filter_cons]
    cases hb : b.is_free <;> simp [hb, sumSizes, ih]

theorem allocSum_compactFreeBlocks (l : List MemoryBlock) :
    allocSum (compactFreeBlocks l) = allocSum l := by
  rw [allocSum_eq_filter, allocSum_eq_filter]
  cases l with
  | nil => rfl
  | cons a rest =>
    rw [show compactFreeBlocks (a :: rest) = compactAux a rest from rfl,
      compactAux_filter rest a]

theorem sumSizes_split (l : List MemoryBlock) :
    sumSizes l = allocSum l + freeSum l := by
  induction l with
  | nil => rfl
  | cons b rest ih =>
    simp only [sumSizes, allocSum, freeSum]
    cases hb : b.is_free <;> simp <;> omega

theorem allocSum_append (l₁ l₂ : List MemoryBlock) :
    allocSum (l₁ ++ l₂) = allocSum l₁ + allocSum l₂ := by
  induction l₁ with
  | nil => simp [allocSum]
  | cons b rest ih =>
    show (if b.is_free then 0 else b.size) + allocSum (rest ++ l₂) = _
    rw [ih]
    simp only [allocSum]
    omega

theorem allocSum_map_free (starts : List Int) (l : List MemoryBlock)
    (h : ∀ b ∈ l, b.start ∈ starts → b.is_free = false) :
    allocSum (l.map (fun b =>
      if b.start ∈ starts then
        { b with is_free := true, process_id := none, allocated_at := none }
      else b)) = allocSum l - inSum starts l := by
  induction l with
  | nil => rfl
  | cons b rest ih =>
    have hrest := ih (fun x hx => h x (List.mem_cons_of_mem _ hx))
    simp only [List.map_cons, allocSum, inSum]
    by_cases hb : b.start ∈ starts
    · rw [if_pos hb, if_pos hb]
      have hbf := h b (by simp) hb
      simp [hbf]
      omega
    · rw [if_neg hb, if_neg hb]
      cases hbf : b.is_free <;> simp [hbf] <;> omega

theorem inSum_eq_ownedSum (starts : List Int) (pid : Int) (l : List MemoryBlock)
    (h : ∀ b ∈ l, b.start ∈ starts ↔ b.process_id = some pid) :
    inSum starts l = ownedSum pid l := by
  induction l with
  | nil => rfl
  | cons b rest ih =>
    have hrest := ih (fun x hx => h x (List.mem_cons_of_mem _ hx))
    simp only [inSum, ownedSum]
    by_cases hb : b.start ∈ starts
    · rw [if_pos hb, if_pos ((h b (by simp)).mp hb)]
      omega
    · rw [if_neg hb, if_neg (fun hp => hb ((h b (by simp)).mpr hp))]
      omega

theorem length_filter_free_split (l : List MemoryBlock) :
    (l.filter (fun b => b.is_free)).length +
      (l.filter (fun b => !b.is_free)).length = l.length := by
  induction l with
  | nil => rfl
  | cons b rest ih =>
    simp only [List.filter_cons, List.length_cons]
    cases hb : b.is_free <;> simp <;> omega

/-! ### A list surgery lemma for the split in `allocate_memory` -/

theorem insertIdx_after (l₁ : List MemoryBlock) (a x : MemoryBlock)
    (l₂ : List MemoryBlock) :
    (l₁ ++ a :: l₂).insertIdx (l₁.length + 1) x = l₁ ++ a :: x :: l₂ := by
  induction l₁ with
  | nil => rfl
  | cons b rest ih =>
    simp only [List.cons_append, List.length_cons, List.insertIdx_succ_cons]
    rw [ih]

/-! ### The allocator invariant -/

theorem covers_start_inj (l : List MemoryBlock) (f t : Int) (h : covers l f t)
    (hpos : ∀ b ∈ l, 0 < b.size) :
    ∀ b ∈ l, ∀ b' ∈ l, b.start = b'.start → b = b' := by
  induction l generalizing f with
  | nil => simp
  | cons a rest ih =>
    obtain ⟨ha, h2⟩ := h
    have hbnd := covers_bounds rest (f + a.size) t h2
      (fun y hy => hpos y (List.mem_cons_of_mem _ hy))
    have hapos := hpos a (by simp)
    intro b hb b' hb' heq
    rcases List.mem_cons.mp hb with hba | hb
    · rcases List.mem_cons.mp hb' with hba' | hb'
      · rw [hba, hba']
      · have hbd := (hbnd b' hb').1
        rw [hba] at heq
        omega
    · rcases List.mem_cons.mp hb' with hba' | hb'
      · have hbd := (hbnd b hb).1
        rw [hba'] at heq
        omega
      · exact ih (f + a.size) h2 (fun y hy => hpos y (List.mem_cons_of_mem _ hy)) b hb b' hb' heq

theorem compactFreeBlocks_pos (l : List MemoryBlock)
    (h : ∀ b ∈ l, 0 < b.size) : ∀ b ∈ compactFreeBlocks l, 0 < b.size := by
  cases l with
  | nil => simp [compactFreeBlocks]
  | cons a rest =>
    exact compactAux_pos rest a (h a (by simp))
      (fun x hx => h x (List.mem_cons_of_mem _ hx))

theorem allocate_memory_eq (m : MemoryManager) (pid size : Int) :
    allocate_memory m pid size =
      if size ≤ 0 ∨ m.total_memory < size then (none, m)
      else
        match bestFit m.memory_blocks size with
        | none => (none, m)
        | some (i, b) =>
          (some b.start,
            { m with
              memory_blocks :=
                if size < b.size then
                  (m.memory_blocks.set i
                    { b with size := size, is_free := false,
                             process_id := some pid, allocated_at := some () }).insertIdx
                    (i + 1) ⟨b.start + size, b.size - size, true, none, none⟩
                else
                  m.memory_blocks.set i
                    { b with is_free := false, process_id := some pid,
                             allocated_at := some () }
              used_memory := m.used_memory + size
              process_memory := pmAddStart m.process_memory pid b.start }) := by
  unfold allocate_memory
  split
  · rfl
  · cases bestFit m.memory_blocks size with
    | none => rfl
    | some ib =>
      obtain ⟨i, b⟩ := ib
      by_cases hs : size < b.size
      · simp [hs]
      · simp [hs]

theorem inv_init (total : Int) : Inv total (MemoryManager.init total) := by
  refine ⟨rfl, ⟨rfl, by simp [covers]⟩, ?_, fun _ => rfl, rfl, ?_, ?_, ?_⟩
  · intro htot b hb
    simp only [MemoryManager.init, List.mem_singleton] at hb
    rw [hb]
    exact htot
  · intro b hb hf
    simp only [MemoryManager.init, List.mem_singleton] at hb
    rw [hb]
    exact ⟨rfl, rfl⟩
  · intro p s
    constructor
    · rintro ⟨starts, hlook, -⟩
      exact absurd hlook (by simp [MemoryManager.init, pmLookup])
    · rintro ⟨b, hb, -, hpid⟩
      simp only [MemoryManager.init, List.mem_singleton] at hb
      rw [hb] at hpid
      exact absurd hpid (by simp)
  · intro p starts hlook
    exact absurd hlook (by simp [MemoryManager.init, pmLookup])

theorem set_at_append (l₁ : List MemoryBlock) (a x : MemoryBlock)
    (l₂ : List MemoryBlock) :
    (l₁ ++ a :: l₂).set l₁.length x = l₁ ++ x :: l₂ := by
  induction l₁ with
  | nil => rfl
  | cons c rest ih =>
    simp only [List.cons_append, List.length_cons, List.set_cons_succ]
    rw [ih]

theorem allocate_memory_guard_fail (m : MemoryManager) (pid size : Int)
    (hguard : size ≤ 0 ∨ m.total_memory < size) :
    allocate_memory m pid size = (none, m) := by
  rw [allocate_memory_eq, if_pos hguard]

theorem allocate_memory_nofit (m : MemoryManager) (pid size : Int)
    (hguard : ¬(size ≤ 0 ∨ m.total_memory < size))
    (hbf : bestFit m.memory_blocks size = none) :
    allocate_memory m pid size = (none, m) := by
  rw [allocate_memory_eq, if_neg hguard, hbf]

theorem allocate_memory_some (m : MemoryManager) (pid size : Int) (i : Nat)
    (b : MemoryBlock) (hguard : ¬(size ≤ 0 ∨ m.total_memory < size))
    (hbf : bestFit m.memory_blocks size = some (i, b)) :
    allocate_memory m pid size =
      (some b.start,
        { m with
          memory_blocks :=
            if size < b.size then
              (m.memory_blocks.set i
                { b with size := size, is_free := false,
                         process_id := some pid, allocated_at := some () }).insertIdx
                (i + 1) ⟨b.start + size, b.size - size, true, none, none⟩
            else
              m.memory_blocks.set i
                { b with is_free := false, process_id := some pid,
                         allocated_at := some () }
          used_memory := m.used_memory + size
          process_memory := pmAddStart m.process_memory pid b.start }) := by
  rw [allocate_memory_eq, if_neg hguard, hbf]

theorem inv_alloc (total : Int) (m : MemoryManager) (pid size : Int)
    (hinv : Inv total m) : Inv total (allocate_memory m pid size).2 := by
  by_cases hguard : size ≤ 0 ∨ m.total_memory < size
  · rw [allocate_memory_guard_fail m pid size hguard]
    exact hinv
  · have hguardkeep := hguard
    push_neg at hguard
    obtain ⟨hsz, hle⟩ := hguard
    have hsz : 0 < size := by omega
    have htot : 0 < total := by have := hinv.total_eq; omega
    cases hbf : bestFit m.memory_blocks size with
    | none =>
      rw [allocate_memory_nofit m pid size hguardkeep hbf]
      exact hinv
    | some ib =>
      obtain ⟨i, b⟩ := ib
      rw [allocate_memory_some m pid size i b hguardkeep hbf]
      have spec := bestFit_spec m.memory_blocks size
      rw [hbf] at spec
      obtain ⟨hib, hcand, hmin, hstrict⟩ := spec
      have hbfree : b.is_free = true := hcand.1
      have hble : size ≤ b.size := hcand.2
      obtain ⟨hi, hival⟩ := List.getElem?_eq_some.mp hib
      have hbmem : b ∈ m.memory_blocks := by
        rw [← hival]; exact List.getElem_mem hi
      have hbpid : b.process_id = none := (hinv.freeClean b hbmem hbfree).1
      have hsurg : m.memory_blocks.take i ++ m.memory_blocks[i] ::
          m.memory_blocks.drop (i + 1) = m.memory_blocks := by
        rw [List.getElem_cons_drop, List.take_append_drop]
      rw [hival] at hsurg
      obtain ⟨L, R, hLR, hLlen⟩ :
          ∃ L R, m.memory_blocks = L ++ b :: R ∧ L.length = i :=
        ⟨m.memory_blocks.take i, m.memory_blocks.drop (i + 1), hsurg.symm,
          by simp [List.length_take]; omega⟩
      have hcov := hinv.cov
      rw [hLR, covers_append_iff] at hcov
      obtain ⟨mid, hcovL, hbstart, hcovR⟩ := hcov
      have hposL : ∀ x ∈ L, 0 < x.size := fun x hx =>
        hinv.pos htot x (by rw [hLR]; exact List.mem_append_left _ hx)
      have hposR : ∀ x ∈ R, 0 < x.size := fun x hx =>
        hinv.pos htot x
          (by rw [hLR]; exact List.mem_append_right _ (List.mem_cons_of_mem _ hx))
      -- the common post-state facts
      have hlookself := pmLookup_addStart_self m.process_memory pid b.start
      by_cases hsplit : size < b.size
      · rw [if_pos hsplit]
        rw [hLR, ← hLlen, set_at_append, insertIdx_after]
        refine ⟨hinv.total_eq, ?_, ?_, ?_, ?_, ?_, ?_, ?_⟩
        · -- covers
          rw [covers_append_iff]
          refine ⟨mid, hcovL, hbstart, ?_, ?_⟩
          · show b.start + size = mid + size
            omega
          · show covers R (mid + size + (b.size - size)) total
            have heq : mid + size + (b.size - size) = mid + b.size := by ring
            rw [heq]
            exact hcovR
        · -- positivity
          intro _ x hx
          rcases List.mem_append.mp hx with hx | hx
          · exact hposL x hx
          · rcases List.mem_cons.mp hx with rfl | hx
            · exact hsz
            · rcases List.mem_cons.mp hx with rfl | hx
              · show 0 < b.size - size
                omega
              · exact hposR x hx
        · -- degenerate
          intro htot'
          exact absurd htot (by omega)
        · -- used accounting
          show m.used_memory + size = _
          rw [allocSum_append]
          have hused := hinv.used_eq
          rw [hLR, allocSum_append] at hused
          have h1 : allocSum (b :: R) = allocSum R := by
            simp [allocSum, hbfree]
          have h2 : allocSum
              ((⟨b.start, size, false, some pid, some ()⟩ : MemoryBlock) ::
                (⟨b.start + size, b.size - size, true, none, none⟩ : MemoryBlock) :: R) =
              size + allocSum R := by
            simp [allocSum]
          rw [h2]
          omega
        · -- freeClean
          intro x hx hxf
          rcases List.mem_append.mp hx with hx | hx
          · exact hinv.freeClean x (by rw [hLR]; exact List.mem_append_left _ hx) hxf
          · rcases List.mem_cons.mp hx with rfl | hx
            · exact absurd hxf (by simp)
            · rcases List.mem_cons.mp hx with rfl | hx
              · exact ⟨rfl, rfl⟩
              · exact hinv.freeClean x
                  (by rw [hLR]; exact List.mem_append_right _ (List.mem_cons_of_mem _ hx)) hxf
        · -- the index characterization
          intro p s
          constructor
          · rintro ⟨starts', hlook, hs⟩
            by_cases hp : p = pid
            · subst hp
              rw [hlookself] at hlook
              injection hlook with hlook
              rw [← hlook] at hs
              rcases List.mem_append.mp hs with hs | hs
              · cases holdl : pmLookup m.process_memory p with
                | none => rw [holdl] at hs; simp at hs
                | some l0 =>
                  rw [holdl] at hs
                  obtain ⟨b₀, hb₀mem, hb₀start, hb₀pid⟩ :=
                    (hinv.idx p s).mp ⟨l0, holdl, hs⟩
                  have hb₀ne : b₀ ≠ b := by
                    intro h
                    rw [h, hbpid] at hb₀pid
                    exact Option.noConfusion hb₀pid
                  rw [hLR] at hb₀mem
                  rcases List.mem_append.mp hb₀mem with hx | hx
                  · exact ⟨b₀, List.mem_append_left _ hx, hb₀start, hb₀pid⟩
                  · rcases List.mem_cons.mp hx with h | hx
                    · exact absurd h hb₀ne
                    · exact ⟨b₀, List.mem_append_right _
                        (List.mem_cons_of_mem _ (List.mem_cons_of_mem _ hx)),
                        hb₀start, hb₀pid⟩
              · rw [List.mem_singleton] at hs
                refine ⟨{ b with size := size, is_free := false, process_id := some p, allocated_at := some () },
                  List.mem_append_right _ (by simp), ?_, rfl⟩
                show b.start = s
                omega
            · rw [pmLookup_addStart_other _ _ _ _ hp] at hlook
              obtain ⟨b₀, hb₀mem, hb₀start, hb₀pid⟩ :=
                (hinv.idx p s).mp ⟨starts', hlook, hs⟩
              have hb₀ne : b₀ ≠ b := by
                intro h
                rw [h, hbpid] at hb₀pid
                exact Option.noConfusion hb₀pid
              rw [hLR] at hb₀mem
              rcases List.mem_append.mp hb₀mem with hx | hx
              · exact ⟨b₀, List.mem_append_left _ hx, hb₀start, hb₀pid⟩
              · rcases List.mem_cons.mp hx with h | hx
                · exact absurd h hb₀ne
                · exact ⟨b₀, List.mem_append_right _
                    (List.mem_cons_of_mem _ (List.mem_cons_of_mem _ hx)),
                    hb₀start, hb₀pid⟩
          · rintro ⟨x, hx, hxs, hxp⟩
            rcases List.mem_append.mp hx with hx | hx
            · obtain ⟨starts₀, hlook₀, hmem₀⟩ :=
                (hinv.idx p s).mpr
                  ⟨x, (by rw [hLR]; exact List.mem_append_left _ hx), hxs, hxp⟩
              by_cases hp : p = pid
              · subst hp
                refine ⟨_, hlookself, ?_⟩
                rw [hlook₀]
                exact List.mem_append_left _ hmem₀
              · exact ⟨starts₀,
                  (by rw [pmLookup_addStart_other _ _ _ _ hp]; exact hlook₀), hmem₀⟩
            · rcases List.mem_cons.mp hx with rfl | hx
              · have hp : pid = p := by
                  have : some pid = some p := hxp
                  injection this
                subst hp
                refine ⟨_, hlookself, ?_⟩
                apply List.mem_append_right
                rw [List.mem_singleton]
                exact hxs.symm
              · rcases List.mem_cons.mp hx with rfl | hx
                · exact absurd hxp (by simp)
                · obtain ⟨starts₀, hlook₀, hmem₀⟩ :=
                    (hinv.idx p s).mpr
                      ⟨x, (by rw [hLR]; exact List.mem_append_right _ (List.mem_cons_of_mem _ hx)), hxs, hxp⟩
                  by_cases hp : p = pid
                  · subst hp
                    refine ⟨_, hlookself, ?_⟩
                    rw [hlook₀]
                    exact List.mem_append_left _ hmem₀
                  · exact ⟨starts₀,
                      (by rw [pmLookup_addStart_other _ _ _ _ hp]; exact hlook₀), hmem₀⟩
        · -- index entries stay nonempty
          intro p starts' hlook
          by_cases hp : p = pid
          · subst hp
            rw [hlookself] at hlook
            injection hlook with hlook
            rw [← hlook]
            simp
          · rw [pmLookup_addStart_other _ _ _ _ hp] at hlook
            exact hinv.idx_nonempty p starts' hlook
      · rw [if_neg hsplit]
        have hbeq : b.size = size := by omega
        rw [hLR, ← hLlen, set_at_append]
        refine ⟨hinv.total_eq, ?_, ?_, ?_, ?_, ?_, ?_, ?_⟩
        · rw [covers_append_iff]
          refine ⟨mid, hcovL, hbstart, ?_⟩
          show covers R (mid + b.size) total
          exact hcovR
        · intro _ x hx
          rcases List.mem_append.mp hx with hx | hx
          · exact hposL x hx
          · rcases List.mem_cons.mp hx with rfl | hx
            · show 0 < b.size
              omega
            · exact hposR x hx
        · intro htot'
          exact absurd htot (by omega)
        · show m.used_memory + size = _
          rw [allocSum_append]
          have hused := hinv.used_eq
          rw [hLR, allocSum_append] at hused
          have h1 : allocSum (b :: R) = allocSum R := by
            simp [allocSum, hbfree]
          have h2 : allocSum
              ((⟨b.start, b.size, false, some pid, some ()⟩ : MemoryBlock) :: R) =
              b.size + allocSum R := by
            simp [allocSum]
          rw [h2]
          omega
        · intro x hx hxf
          rcases List.mem_append.mp hx with hx | hx
          · exact hinv.freeClean x (by rw [hLR]; exact List.mem_append_left _ hx) hxf
          · rcases List.mem_cons.mp hx with rfl | hx
            · exact absurd hxf (by simp)
            · exact hinv.freeClean x
                (by rw [hLR]; exact List.mem_append_right _ (List.mem_cons_of_mem _ hx)) hxf
        · intro p s
          constructor
          · rintro ⟨starts', hlook, hs⟩
            by_cases hp : p = pid
            · subst hp
              rw [hlookself] at hlook
              injection hlook with hlook
              rw [← hlook] at hs
              rcases List.mem_append.mp hs with hs | hs
              · cases holdl : pmLookup m.process_memory p with
                | none => rw [holdl] at hs; simp at hs
                | some l0 =>
                  rw [holdl] at hs
                  obtain ⟨b₀, hb₀mem, hb₀start, hb₀pid⟩ :=
                    (hinv.idx p s).mp ⟨l0, holdl, hs⟩
                  have hb₀ne : b₀ ≠ b := by
                    intro h
                    rw [h, hbpid] at hb₀pid
                    exact Option.noConfusion hb₀pid
                  rw [hLR] at hb₀mem
                  rcases List.mem_append.mp hb₀mem with hx | hx
                  · exact ⟨b₀, List.mem_append_left _ hx, hb₀start, hb₀pid⟩
                  · rcases List.mem_cons.mp hx with h | hx
                    · exact absurd h hb₀ne
                    · exact ⟨b₀, List.mem_append_right _
                        (List.mem_cons_of_mem _ hx), hb₀start, hb₀pid⟩
              · rw [List.mem_singleton] at hs
                refine ⟨{ b with is_free := false, process_id := some p, allocated_at := some () },
                  List.mem_append_right _ (by simp), ?_, rfl⟩
                show b.start = s
                omega
            · rw [pmLookup_addStart_other _ _ _ _ hp] at hlook
              obtain ⟨b₀, hb₀mem, hb₀start, hb₀pid⟩ :=
                (hinv.idx p s).mp ⟨starts', hlook, hs⟩
              have hb₀ne : b₀ ≠ b := by
                intro h
                rw [h, hbpid] at hb₀pid
                exact Option.noConfusion hb₀pid
              rw [hLR] at hb₀mem
              rcases List.mem_append.mp hb₀mem with hx | hx
              · exact ⟨b₀, List.mem_append_left _ hx, hb₀start, hb₀pid⟩
              · rcases List.mem_cons.mp hx with h | hx
                · exact absurd h hb₀ne
                · exact ⟨b₀, List.mem_append_right _
                    (List.mem_cons_of_mem _ hx), hb₀start, hb₀pid⟩
          · rintro ⟨x, hx, hxs, hxp⟩
            rcases List.mem_append.mp hx with hx | hx
            · obtain ⟨starts₀, hlook₀, hmem₀⟩ :=
                (hinv.idx p s).mpr
                  ⟨x, (by rw [hLR]; exact List.mem_append_left _ hx), hxs, hxp⟩
              by_cases hp : p = pid
              · subst hp
                refine ⟨_, hlookself, ?_⟩
                rw [hlook₀]
                exact List.mem_append_left _ hmem₀
              · exact ⟨starts₀,
                  (by rw [pmLookup_addStart_other _ _ _ _ hp]; exact hlook₀), hmem₀⟩
            · rcases List.mem_cons.mp hx with rfl | hx
              · have hp : pid = p := by
                  have : some pid = some p := hxp
                  injection this
                subst hp
                refine ⟨_, hlookself, ?_⟩
                apply List.mem_append_right
                rw [List.mem_singleton]
                exact hxs.symm
              · obtain ⟨starts₀, hlook₀, hmem₀⟩ :=
                  (hinv.idx p s).mpr
                    ⟨x, (by rw [hLR]; exact List.mem_append_right _ (List.mem_cons_of_mem _ hx)), hxs, hxp⟩
                by_cases hp : p = pid
                · subst hp
                  refine ⟨_, hlookself, ?_⟩
                  rw [hlook₀]
                  exact List.mem_append_left _ hmem₀
                · exact ⟨starts₀, by
                    rw [pmLookup_addStart_other _ _ _ _ hp]; exact hlook₀, hmem₀⟩
        · intro p starts' hlook
          by_cases hp : p = pid
          · subst hp
            rw [hlookself] at hlook
            injection hlook with hlook
            rw [← hlook]
            simp
          · rw [pmLookup_addStart_other _ _ _ _ hp] at hlook
            exact hinv.idx_nonempty p starts' hlook

theorem deallocate_memory_none (m : MemoryManager) (pid : Int)
    (h : pmLookup m.process_memory pid = none) :
    deallocate_memory m pid = (false, m) := by
  unfold deallocate_memory
  rw [h]

theorem deallocate_memory_some (m : MemoryManager) (pid : Int) (starts : List Int)
    (h : pmLookup m.process_memory pid = some starts) :
    deallocate_memory m pid =
      (true,
        { m with
          memory_blocks := compactFreeBlocks (m.memory_blocks.map (fun b =>
            if b.start ∈ starts then
              { b with is_free := true, process_id := none, allocated_at := none }
            else b))
          used_memory := m.used_memory - inSum starts m.memory_blocks
          process_memory := pmErase m.process_memory pid }) := by
  unfold deallocate_memory
  rw [h]

theorem compactFreeBlocks_mem (l : List MemoryBlock) :
    ∀ b' ∈ compactFreeBlocks l, ∃ b ∈ l, b'.start = b.start ∧
      b'.is_free = b.is_free ∧ b'.process_id = b.process_id ∧
      b'.allocated_at = b.allocated_at := by
  cases l with
  | nil => simp [compactFreeBlocks]
  | cons a rest =>
    intro b' hb'
    obtain ⟨b, hb, hs⟩ := compactAux_mem rest a b' hb'
    rcases hb with rfl | hb
    · exact ⟨b, by simp, hs⟩
    · exact ⟨b, List.mem_cons_of_mem _ hb, hs⟩

theorem compactFreeBlocks_filter (l : List MemoryBlock) :
    (compactFreeBlocks l).filter (fun b => !b.is_free) =
      l.filter (fun b => !b.is_free) := by
  cases l with
  | nil => rfl
  | cons a rest =>
    rw [show compactFreeBlocks (a :: rest) = compactAux a rest from rfl]
    exact compactAux_filter rest a

theorem Inv.owned_iff (total : Int) (m : MemoryManager) (hinv : Inv total m)
    (htot : 0 < total) (pid : Int) (starts : List Int)
    (hlook : pmLookup m.process_memory pid = some starts) :
    ∀ b ∈ m.memory_blocks, (b.start ∈ starts ↔ b.process_id = some pid) := by
  intro x hx
  constructor
  · intro hmem
    obtain ⟨b', hb'mem, hb'start, hb'pid⟩ :=
      (hinv.idx pid x.start).mp ⟨starts, hlook, hmem⟩
    have heq := covers_start_inj m.memory_blocks 0 total hinv.cov
      (hinv.pos htot) b' hb'mem x hx hb'start
    rw [← heq]
    exact hb'pid
  · intro hpid
    obtain ⟨starts₂, hlook₂, hmem₂⟩ :=
      (hinv.idx pid x.start).mpr ⟨x, hx, rfl, hpid⟩
    rw [hlook] at hlook₂
    injection hlook₂ with h
    rw [h]
    exact hmem₂

theorem inv_dealloc (total : Int) (m : MemoryManager) (pid : Int)
    (hinv : Inv total m) : Inv total (deallocate_memory m pid).2 := by
  cases hlook : pmLookup m.process_memory pid with
  | none =>
    rw [deallocate_memory_none m pid hlook]
    exact hinv
  | some starts =>
    rw [deallocate_memory_some m pid starts hlook]
    have htot : 0 < total := by
      by_contra h
      have hdeg := hinv.degenerate (by omega)
      rw [hdeg] at hlook
      simp [MemoryManager.init, pmLookup] at hlook
    have hown := Inv.owned_iff total m hinv htot pid starts hlook
    have hfreedalloc : ∀ x ∈ m.memory_blocks, x.start ∈ starts → x.is_free = false := by
      intro x hx hmem
      have hpid := (hown x hx).mp hmem
      cases hxf : x.is_free
      · rfl
      · have h2 := (hinv.freeClean x hx hxf).1
        rw [h2] at hpid
        exact Option.noConfusion hpid
    have hφpres : ∀ b : MemoryBlock,
        ((fun b => if b.start ∈ starts then
          { b with is_free := true, process_id := none, allocated_at := none }
          else b) b).start = b.start ∧
        ((fun b => if b.start ∈ starts then
          { b with is_free := true, process_id := none, allocated_at := none }
          else b) b).size = b.size := by
      intro b
      by_cases hb : b.start ∈ starts <;> simp [hb]
    refine ⟨hinv.total_eq, ?_, ?_, ?_, ?_, ?_, ?_, ?_⟩
    · apply compactFreeBlocks_covers
      rw [covers_map _ _ _ _ hφpres]
      exact hinv.cov
    · intro _ x hx
      refine compactFreeBlocks_pos _ ?_ x hx
      intro y hy
      obtain ⟨y₀, hy₀, hyeq⟩ := List.mem_map.mp hy
      have hsz : y.size = y₀.size := by
        rw [← hyeq]
        by_cases hb : y₀.start ∈ starts <;> simp [hb]
      rw [hsz]
      exact hinv.pos htot y₀ hy₀
    · intro h
      exact absurd htot (by omega)
    · show m.used_memory - inSum starts m.memory_blocks = _
      rw [allocSum_compactFreeBlocks, allocSum_map_free starts _ hfreedalloc,
        hinv.used_eq]
    · intro x hx hxf
      obtain ⟨y, hymem, hystart, hyfree, hypid, hyts⟩ := compactFreeBlocks_mem _ x hx
      obtain ⟨y₀, hy₀mem, hy₀eq⟩ := List.mem_map.mp hymem
      by_cases hy₀in : y₀.start ∈ starts
      · rw [← hy₀eq] at hypid hyts
        simp only [hy₀in, if_pos] at hypid hyts
        exact ⟨hypid, hyts⟩
      · have hyeq2 : y = y₀ := by rw [← hy₀eq]; simp [hy₀in]
        rw [hyeq2] at hyfree hypid hyts
        rw [hxf] at hyfree
        have h2 := hinv.freeClean y₀ hy₀mem hyfree.symm
        rw [hypid, hyts]
        exact h2
    · intro p s
      constructor
      · rintro ⟨starts', hlook', hs⟩
        have hp : p ≠ pid := by
          intro h
          rw [h, pmLookup_erase_self] at hlook'
          exact Option.noConfusion hlook'
        rw [pmLookup_erase_other _ _ _ hp] at hlook'
        obtain ⟨b₀, hb₀mem, hb₀start, hb₀pid⟩ :=
          (hinv.idx p s).mp ⟨starts', hlook', hs⟩
        have hb₀notin : b₀.start ∉ starts := by
          intro hmem
          have h2 := (hown b₀ hb₀mem).mp hmem
          rw [hb₀pid] at h2
          injection h2 with h3
          exact hp h3
        have hb₀alloc : b₀.is_free = false := by
          cases hf : b₀.is_free
          · rfl
          · have h2 := (hinv.freeClean b₀ hb₀mem hf).1
            rw [h2] at hb₀pid
            exact Option.noConfusion hb₀pid
        have hmap : b₀ ∈ m.memory_blocks.map (fun b =>
            if b.start ∈ starts then
              { b with is_free := true, process_id := none, allocated_at := none }
            else b) := by
          have h3 : (fun (b : MemoryBlock) =>
              if b.start ∈ starts then
                { b with is_free := true, process_id := none, allocated_at := none }
              else b) b₀ = b₀ := by simp [hb₀notin]
          rw [← h3]
          exact List.mem_map_of_mem _ hb₀mem
        have h4 : b₀ ∈ (m.memory_blocks.map (fun b =>
            if b.start ∈ starts then
              { b with is_free := true, process_id := none, allocated_at := none }
            else b)).filter (fun b => !b.is_free) := by
          rw [List.mem_filter]
          exact ⟨hmap, by rw [hb₀alloc]; rfl⟩
        rw [← compactFreeBlocks_filter] at h4
        exact ⟨b₀, (List.mem_filter.mp h4).1, hb₀start, hb₀pid⟩
      · rintro ⟨x, hx, hxs, hxp⟩
        obtain ⟨y, hymem, hystart, hyfree, hypid, hyts⟩ := compactFreeBlocks_mem _ x hx
        obtain ⟨y₀, hy₀mem, hy₀eq⟩ := List.mem_map.mp hymem
        by_cases hy₀in : y₀.start ∈ starts
        · rw [← hy₀eq] at hypid
          simp only [hy₀in, if_pos] at hypid
          rw [hypid] at hxp
          exact absurd hxp (by simp)
        · have hyeq2 : y = y₀ := by rw [← hy₀eq]; simp [hy₀in]
          rw [hyeq2] at hystart hypid
          have hy₀pid : y₀.process_id = some p := by rw [← hypid]; exact hxp
          have hp : p ≠ pid := by
            intro h
            rw [h] at hy₀pid
            have := (hown y₀ hy₀mem).mpr hy₀pid
            exact hy₀in this
          obtain ⟨starts₀, hlook₀, hmem₀⟩ :=
            (hinv.idx p s).mpr ⟨y₀, hy₀mem, by rw [← hystart]; exact hxs, hy₀pid⟩
          exact ⟨starts₀,
            (by rw [pmLookup_erase_other _ _ _ hp]; exact hlook₀), hmem₀⟩
    · intro p starts' hlook'
      have hp : p ≠ pid := by
        intro h
        rw [h, pmLookup_erase_self] at hlook'
        exact Option.noConfusion hlook'
      rw [pmLookup_erase_other _ _ _ hp] at hlook'
      exact hinv.idx_nonempty p starts' hlook'

theorem reach_inv (total : Int) (m : MemoryManager) (h : Reach total m) :
    Inv total m := by
  induction h with
  | init => exact inv_init total
  | alloc m pid size _ ih => exact inv_alloc total m pid size ih
  | dealloc m pid _ ih => exact inv_dealloc total m pid ih

/-! ### Claim theorems: the allocator -/

/-- **C1**: for every sequence of `allocate_memory`/`deallocate_memory`
calls from a fresh `MemoryManager(total_memory)`, the block sequence
exactly partitions `[0, total_memory)`: the first block starts at `0`,
each block starts where the previous one ends (`covers`), the sizes sum
to `total_memory`, and the starts are strictly ascending. -/
theorem allocator_partitions (total : Int) (m : MemoryManager) (h : Reach total m) :
    (∀ hd, m.memory_blocks.head? = some hd → hd.start = 0) ∧
    covers m.memory_blocks 0 total ∧
    sumSizes m.memory_blocks = total ∧
    List.Chain' (fun a c => a.start < c.start) m.memory_blocks := by
  have hinv := reach_inv total m h
  refine ⟨?_, hinv.cov, ?_, ?_⟩
  · intro hd hhd
    cases hblocks : m.memory_blocks with
    | nil => rw [hblocks] at hhd; exact Option.noConfusion hhd
    | cons a rest =>
      rw [hblocks] at hhd
      injection hhd with h2
      have hcov := hinv.cov
      rw [hblocks] at hcov
      obtain ⟨ha, -⟩ := hcov
      rw [← h2]
      exact ha
  · have := covers_sum _ _ _ hinv.cov
    omega
  · by_cases htot : 0 < total
    · exact covers_chain _ _ _ hinv.cov (hinv.pos htot)
    · have hdeg := hinv.degenerate (by omega)
      rw [hdeg]
      simp [MemoryManager.init]

theorem allocator_partitions_witness :
    (∀ hd, (allocate_memory (MemoryManager.init 1024) 1 100).2.memory_blocks.head? =
        some hd → hd.start = 0) ∧
    covers (allocate_memory (MemoryManager.init 1024) 1 100).2.memory_blocks 0 1024 ∧
    sumSizes (allocate_memory (MemoryManager.init 1024) 1 100).2.memory_blocks = 1024 ∧
    List.Chain' (fun a c => a.start < c.start)
      (allocate_memory (MemoryManager.init 1024) 1 100).2.memory_blocks :=
  allocator_partitions 1024 (allocate_memory (MemoryManager.init 1024) 1 100).2
    (Reach.alloc (MemoryManager.init 1024) 1 100 Reach.init)

/-- **C2**: a successful `allocate_memory(pid, size)` has `0 < size ≤
total_memory`, picks the free block of minimal size among those of size
`≥ size` (the first such block in scan order on ties), returns its start
address, raises `used_memory` by `size`, and either splits the block
(strictly larger: it shrinks to `size` and a free remainder block is
inserted right after it) or just marks it allocated (exact fit). -/
theorem allocate_best_fit (m : MemoryManager) (pid size addr : Int)
    (m' : MemoryManager) (h : allocate_memory m pid size = (some addr, m')) :
    0 < size ∧ size ≤ m.total_memory ∧
    ∃ i b, m.memory_blocks[i]? = some b ∧ b.is_free = true ∧ size ≤ b.size ∧
      (∀ (j : Nat) (bj : MemoryBlock), m.memory_blocks[j]? = some bj →
        bj.is_free = true → size ≤ bj.size → b.size ≤ bj.size) ∧
      (∀ (j : Nat) (bj : MemoryBlock), j < i → m.memory_blocks[j]? = some bj →
        bj.is_free = true → size ≤ bj.size → b.size < bj.size) ∧
      addr = b.start ∧
      m'.used_memory = m.used_memory + size ∧
      (size < b.size →
        m'.memory_blocks =
          m.memory_blocks.take i ++
            { b with size := size, is_free := false, process_id := some pid, allocated_at := some () } ::
            (⟨b.start + size, b.size - size, true, none, none⟩ : MemoryBlock) ::
            m.memory_blocks.drop (i + 1)) ∧
      (b.size = size →
        m'.memory_blocks =
          m.memory_blocks.take i ++
            { b with is_free := false, process_id := some pid, allocated_at := some () } ::
            m.memory_blocks.drop (i + 1)) := by
  by_cases hguard : size ≤ 0 ∨ m.total_memory < size
  · rw [allocate_memory_guard_fail m pid size hguard] at h
    exact absurd (congrArg Prod.fst h) (by simp)
  · cases hbf : bestFit m.memory_blocks size with
    | none =>
      rw [allocate_memory_nofit m pid size hguard hbf] at h
      exact absurd (congrArg Prod.fst h) (by simp)
    | some ib =>
      obtain ⟨i, b⟩ := ib
      rw [allocate_memory_some m pid size i b hguard hbf, Prod.mk.injEq] at h
      obtain ⟨haddr, hm'⟩ := h
      injection haddr with haddr
      replace hm' := hm'.symm
      have spec := bestFit_spec m.memory_blocks size
      rw [hbf] at spec
      obtain ⟨hib, hcand, hmin, hstrict⟩ := spec
      obtain ⟨hi, hival⟩ := List.getElem?_eq_some.mp hib
      push_neg at hguard
      obtain ⟨hsz0, hle⟩ := hguard
      have hlen : (m.memory_blocks.take i).length = i := by
        simp [List.length_take]
        omega
      refine ⟨by omega, hle, i, b, hib, hcand.1, hcand.2,
        (fun j bj h1 h2 h3 => hmin j bj h1 ⟨h2, h3⟩),
        (fun j bj h0 h1 h2 h3 => hstrict j bj h0 h1 ⟨h2, h3⟩),
        haddr.symm, by rw [hm'], ?_, ?_⟩
      · intro hsplit
        rw [hm']
        show (if size < b.size then _ else _) = _
        rw [if_pos hsplit, List.set_eq_take_cons_drop _ hi,
          show i + 1 = (m.memory_blocks.take i).length + 1 from by rw [hlen],
          insertIdx_after]
      · intro hbeq
        rw [hm']
        show (if size < b.size then _ else _) = _
        rw [if_neg (by omega), List.set_eq_take_cons_drop _ hi]

theorem allocate_best_fit_witness :
    0 < (100 : Int) ∧ (100 : Int) ≤ (MemoryManager.init 1024).total_memory ∧
    ∃ i b, (MemoryManager.init 1024).memory_blocks[i]? = some b ∧
      b.is_free = true ∧ (100 : Int) ≤ b.size ∧
      (∀ (j : Nat) (bj : MemoryBlock), (MemoryManager.init 1024).memory_blocks[j]? = some bj →
        bj.is_free = true → (100 : Int) ≤ bj.size → b.size ≤ bj.size) ∧
      (∀ (j : Nat) (bj : MemoryBlock), j < i →
        (MemoryManager.init 1024).memory_blocks[j]? = some bj →
        bj.is_free = true → (100 : Int) ≤ bj.size → b.size < bj.size) ∧
      (0 : Int) = b.start ∧
      (⟨1024, 100, [⟨0, 100, false, some 1, some ()⟩, ⟨100, 924, true, none, none⟩],
        [(1, [0])]⟩ : MemoryManager).used_memory = (MemoryManager.init 1024).used_memory + 100 ∧
      (100 < b.size →
        (⟨1024, 100, [⟨0, 100, false, some 1, some ()⟩, ⟨100, 924, true, none, none⟩],
          [(1, [0])]⟩ : MemoryManager).memory_blocks =
          (MemoryManager.init 1024).memory_blocks.take i ++
            { b with size := 100, is_free := false, process_id := some 1, allocated_at := some () } ::
            (⟨b.start + 100, b.size - 100, true, none, none⟩ : MemoryBlock) ::
            (MemoryManager.init 1024).memory_blocks.drop (i + 1)) ∧
      (b.size = 100 →
        (⟨1024, 100, [⟨0, 100, false, some 1, some ()⟩, ⟨100, 924, true, none, none⟩],
          [(1, [0])]⟩ : MemoryManager).memory_blocks =
          (MemoryManager.init 1024).memory_blocks.take i ++
            { b with is_free := false, process_id := some 1, allocated_at := some () } ::
            (MemoryManager.init 1024).memory_blocks.drop (i + 1)) :=
  allocate_best_fit (MemoryManager.init 1024) 1 100 0
    ⟨1024, 100, [⟨0, 100, false, some 1, some ()⟩, ⟨100, 924, true, none, none⟩],
      [(1, [0])]⟩ (by decide)

/-- **C3**: after a successful `deallocate_memory`, no two adjacent
blocks in the sequence are both free (coalescing is complete). -/
theorem deallocate_no_adjacent_free (m : MemoryManager) (pid : Int)
    (m' : MemoryManager) (h : deallocate_memory m pid = (true, m')) :
    List.Chain' (fun a c => ¬(a.is_free = true ∧ c.is_free = true))
      m'.memory_blocks := by
  cases hlook : pmLookup m.process_memory pid with
  | none =>
    rw [deallocate_memory_none m pid hlook] at h
    exact absurd (congrArg Prod.fst h) (by simp)
  | some starts =>
    rw [deallocate_memory_some m pid starts hlook, Prod.mk.injEq] at h
    obtain ⟨-, hm'⟩ := h
    rw [← hm']
    exact compactFreeBlocks_chain _

theorem deallocate_no_adjacent_free_witness :
    List.Chain' (fun a c => ¬(a.is_free = true ∧ c.is_free = true))
      ((⟨1024, 0, [⟨0, 1024, true, none, none⟩], []⟩ : MemoryManager).memory_blocks) :=
  deallocate_no_adjacent_free
    (allocate_memory (MemoryManager.init 1024) 1 100).2 1
    ⟨1024, 0, [⟨0, 1024, true, none, none⟩], []⟩ (by decide)

/-- **C4**: `allocate_memory` fails (returns `None`) exactly when the
size constraint `0 < size ≤ total_memory` is violated or no free block
is large enough; a failing call leaves the state unchanged. -/
theorem allocate_fail_iff (m : MemoryManager) (pid size : Int) :
    ((allocate_memory m pid size).1 = none ↔
      size ≤ 0 ∨ m.total_memory < size ∨
        ∀ b ∈ m.memory_blocks, ¬(b.is_free = true ∧ size ≤ b.size)) ∧
    ((allocate_memory m pid size).1 = none →
      (allocate_memory m pid size).2 = m) := by
  by_cases hguard : size ≤ 0 ∨ m.total_memory < size
  · rw [allocate_memory_guard_fail m pid size hguard]
    refine ⟨⟨fun _ => ?_, fun _ => rfl⟩, fun _ => rfl⟩
    rcases hguard with h | h
    · exact Or.inl h
    · exact Or.inr (Or.inl h)
  · cases hbf : bestFit m.memory_blocks size with
    | none =>
      rw [allocate_memory_nofit m pid size hguard hbf]
      have hnone := (bestFitAux_eq_none size m.memory_blocks 0 none).mp hbf
      exact ⟨⟨fun _ => Or.inr (Or.inr hnone.2), fun _ => rfl⟩, fun _ => rfl⟩
    | some ib =>
      obtain ⟨i, b⟩ := ib
      rw [allocate_memory_some m pid size i b hguard hbf]
      constructor
      · constructor
        · intro hh
          exact absurd hh (by simp)
        · intro hh
          exfalso
          push_neg at hguard
          rcases hh with h | h | h
          · omega
          · omega
          · have spec := bestFit_spec m.memory_blocks size
            rw [hbf] at spec
            obtain ⟨hib, hcand, -, -⟩ := spec
            obtain ⟨hi, hival⟩ := List.getElem?_eq_some.mp hib
            exact h b (by rw [← hival]; exact List.getElem_mem hi) hcand
      · intro hh
        exact absurd hh (by simp)

theorem allocate_fail_iff_witness :
    ((allocate_memory (MemoryManager.init 1024) 1 2000).1 = none ↔
      (2000 : Int) ≤ 0 ∨ (MemoryManager.init 1024).total_memory < 2000 ∨
        ∀ b ∈ (MemoryManager.init 1024).memory_blocks,
          ¬(b.is_free = true ∧ (2000 : Int) ≤ b.size)) ∧
    ((allocate_memory (MemoryManager.init 1024) 1 2000).1 = none →
      (allocate_memory (MemoryManager.init 1024) 1 2000).2 = MemoryManager.init 1024) :=
  allocate_fail_iff (MemoryManager.init 1024) 1 2000

/-- **C5**: `deallocate_memory(pid)` fails (returns `False`) exactly when
the owner has no entry in the owner→blocks index, leaving the state
unchanged; on success it frees the owner's blocks (afterwards no block
is owned by `pid`, every free block has its timestamp cleared),
removes the index entry, and decreases `used_memory` by the total size
the owner held. -/
theorem deallocate_spec (total : Int) (m : MemoryManager) (pid : Int)
    (h : Reach total m) :
    ((deallocate_memory m pid).1 = false ↔ pmLookup m.process_memory pid = none) ∧
    (pmLookup m.process_memory pid = none → (deallocate_memory m pid).2 = m) ∧
    (pmLookup m.process_memory pid ≠ none →
      (deallocate_memory m pid).1 = true ∧
      pmLookup (deallocate_memory m pid).2.process_memory pid = none ∧
      (∀ b ∈ (deallocate_memory m pid).2.memory_blocks, b.process_id ≠ some pid) ∧
      (∀ b ∈ (deallocate_memory m pid).2.memory_blocks, b.is_free = true →
        b.process_id = none ∧ b.allocated_at = none) ∧
      (deallocate_memory m pid).2.used_memory =
        m.used_memory - ownedSum pid m.memory_blocks) := by
  have hinv := reach_inv total m h
  have hinv' := inv_dealloc total m pid hinv
  cases hlook : pmLookup m.process_memory pid with
  | none =>
    rw [deallocate_memory_none m pid hlook]
    refine ⟨⟨fun _ => rfl, fun _ => rfl⟩, fun _ => rfl, fun h2 => absurd rfl h2⟩
  | some starts =>
    have htot : 0 < total := by
      by_contra hc
      have hdeg := hinv.degenerate (by omega)
      rw [hdeg] at hlook
      simp [MemoryManager.init, pmLookup] at hlook
    have hown := Inv.owned_iff total m hinv htot pid starts hlook
    rw [deallocate_memory_some m pid starts hlook] at hinv' ⊢
    refine ⟨⟨fun hc => absurd hc (by simp), fun hc => absurd hc (by simp)⟩,
      fun hc => absurd hc (by simp), fun _ => ⟨rfl, ?_, ?_, ?_, ?_⟩⟩
    · exact pmLookup_erase_self m.process_memory pid
    · intro x hx hxp
      obtain ⟨starts', hlook', -⟩ := (hinv'.idx pid x.start).mpr ⟨x, hx, rfl, hxp⟩
      rw [show ((true, { m with
          memory_blocks := compactFreeBlocks (m.memory_blocks.map (fun b =>
            if b.start ∈ starts then
              { b with is_free := true, process_id := none, allocated_at := none }
            else b))
          used_memory := m.used_memory - inSum starts m.memory_blocks
          process_memory := pmErase m.process_memory pid }) : Bool × MemoryManager).2.process_memory =
          pmErase m.process_memory pid from rfl, pmLookup_erase_self] at hlook'
      exact Option.noConfusion hlook'
    · exact fun b hb hbf => hinv'.freeClean b hb hbf
    · show m.used_memory - inSum starts m.memory_blocks = _
      rw [inSum_eq_ownedSum starts pid _ hown]

theorem deallocate_spec_witness :
    (deallocate_memory (allocate_memory (MemoryManager.init 1024) 1 100).2 1).1 = true ∧
    (deallocate_memory (allocate_memory (MemoryManager.init 1024) 1 100).2 1).2.used_memory =
      (allocate_memory (MemoryManager.init 1024) 1 100).2.used_memory -
        ownedSum 1 (allocate_memory (MemoryManager.init 1024) 1 100).2.memory_blocks := by
  have h := deallocate_spec 1024 (allocate_memory (MemoryManager.init 1024) 1 100).2 1
    (Reach.alloc (MemoryManager.init 1024) 1 100 Reach.init)
  exact ⟨(h.2.2 (by decide)).1, (h.2.2 (by decide)).2.2.2.2⟩

/-- **C6**: on a fresh 1024-unit allocator, `allocate_memory(1, 100)`
returns address `0` and leaves an allocated block of size `100` at `0`
followed by one free block of size `924`; `deallocate_memory(1)` then
restores a single free block of size `1024`. -/
theorem scenario_alloc_dealloc_1024 :
    (allocate_memory (MemoryManager.init 1024) 1 100).1 = some 0 ∧
    (allocate_memory (MemoryManager.init 1024) 1 100).2.memory_blocks =
      [⟨0, 100, false, some 1, some ()⟩, ⟨100, 924, true, none, none⟩] ∧
    (deallocate_memory (allocate_memory (MemoryManager.init 1024) 1 100).2 1).1 = true ∧
    (deallocate_memory (allocate_memory (MemoryManager.init 1024) 1 100).2 1).2.memory_blocks =
      [⟨0, 1024, true, none, none⟩] := by
  decide

/-- **C10**: in every reachable state, `used_memory` plus the free
sizes equals `total_memory`; `get_memory_usage` therefore reports
`free_memory = total_memory - used_memory`, and its free and allocated
block counts sum to the total block count. -/
theorem memory_usage_consistent (total : Int) (m : MemoryManager)
    (h : Reach total m) :
    m.used_memory + freeSum m.memory_blocks = total ∧
    (get_memory_usage m).free_memory =
      (get_memory_usage m).total_memory - (get_memory_usage m).used_memory ∧
    (get_memory_usage m).free_blocks + (get_memory_usage m).allocated_blocks =
      (get_memory_usage m).total_blocks := by
  have hinv := reach_inv total m h
  have hsum := covers_sum _ _ _ hinv.cov
  have hsplitsum := sumSizes_split m.memory_blocks
  have hused := hinv.used_eq
  have htoteq := hinv.total_eq
  refine ⟨by omega, ?_, ?_⟩
  · show freeSum m.memory_blocks = m.total_memory - m.used_memory
    omega
  · exact length_filter_free_split m.memory_blocks

theorem memory_usage_consistent_witness :
    (allocate_memory (MemoryManager.init 1024) 1 100).2.used_memory +
      freeSum (allocate_memory (MemoryManager.init 1024) 1 100).2.memory_blocks = 1024 ∧
    (get_memory_usage (allocate_memory (MemoryManager.init 1024) 1 100).2).free_memory =
      (get_memory_usage (allocate_memory (MemoryManager.init 1024) 1 100).2).total_memory -
      (get_memory_usage (allocate_memory (MemoryManager.init 1024) 1 100).2).used_memory ∧
    (get_memory_usage (allocate_memory (MemoryManager.init 1024) 1 100).2).free_blocks +
      (get_memory_usage (allocate_memory (MemoryManager.init 1024) 1 100).2).allocated_blocks =
      (get_memory_usage (allocate_memory (MemoryManager.init 1024) 1 100).2).total_blocks :=
  memory_usage_consistent 1024 (allocate_memory (MemoryManager.init 1024) 1 100).2
    (Reach.alloc (MemoryManager.init 1024) 1 100 Reach.init)

/-! ### Lemmas: the file store -/

theorem itemsLookup_replace_self : ∀ (items : FsItems) (key : String) (nv : FsNode),
    (itemsLookup items key).isSome →
    itemsLookup (itemsReplace items key nv) key = some nv
  | .nil, key, nv, h => by simp [itemsLookup] at h
  | .cons k v rest, key, nv, h => by
    by_cases hk : k = key
    · simp [itemsReplace, itemsLookup, hk]
    · simp only [itemsLookup, if_neg hk] at h
      simp only [itemsReplace, if_neg hk, itemsLookup]
      exact itemsLookup_replace_self rest key nv h

theorem walkItems_dir_cons (n cr mo : String) (items : FsItems) (pm : String)
    (part : String) (rest : List String) :
    walkItems (.dir n cr mo items pm) (part :: rest) =
      (match itemsLookup items part with
       | none => .ok none
       | some child => walkItems child rest) := rfl

theorem updateAtPath_walk (parts : List String) :
    ∀ (node : FsNode) (f : FsNode → Except FsErr FsNode) (node' : FsNode),
      updateAtPath node parts f = .ok node' →
      ∃ target target', walkItems node parts = .ok (some target) ∧
        f target = .ok target' ∧ walkItems node' parts = .ok (some target') := by
  induction parts with
  | nil =>
    intro node f node' h
    cases node with
    | file n c cr mo sz pm => exact ⟨_, node', rfl, h, by cases node' <;> rfl⟩
    | dir n cr mo items pm => exact ⟨_, node', rfl, h, by cases node' <;> rfl⟩
  | cons part rest ih =>
    intro node f node' h
    cases node with
    | file n c cr mo sz pm => exact absurd h (by simp [updateAtPath])
    | dir n cr mo items pm =>
      have h1 : (match itemsLookup items part with
          | none => (Except.error FsErr.dirNotFound : Except FsErr FsNode)
          | some child =>
            match updateAtPath child rest f with
            | Except.error e => Except.error e
            | Except.ok child' =>
              Except.ok (FsNode.dir n cr mo (itemsReplace items part child') pm)) =
          Except.ok node' := h
      clear h
      cases hlk : itemsLookup items part with
      | none => rw [hlk] at h1; exact absurd h1 (by simp)
      | some child =>
        rw [hlk] at h1
        have h2 : (match updateAtPath child rest f with
            | Except.error e => (Except.error e : Except FsErr FsNode)
            | Except.ok child' =>
              Except.ok (FsNode.dir n cr mo (itemsReplace items part child') pm)) =
            Except.ok node' := h1
        cases hup : updateAtPath child rest f with
        | error e => rw [hup] at h2; exact absurd h2 (by simp)
        | ok child' =>
          rw [hup] at h2
          have h3 : Except.ok (FsNode.dir n cr mo (itemsReplace items part child') pm) =
              (Except.ok node' : Except FsErr FsNode) := h2
          injection h3 with h3
          obtain ⟨target, target', hwalk, hf, hwalk'⟩ := ih child f child' hup
          refine ⟨target, target', ?_, hf, ?_⟩
          · rw [walkItems_dir_cons, hlk]
            exact hwalk
          · rw [← h3, walkItems_dir_cons,
              itemsLookup_replace_self items part child' (by rw [hlk]; rfl)]
            exact hwalk'

theorem read_file_of_getItem_dir (root : FsNode) (d n dn dc dm : String)
    (items : FsItems) (dp : String)
    (h : getItem root d = .ok (some (.dir dn dc dm items dp))) :
    read_file root d n =
      (match itemsLookup items n with
       | none => .error .fileNotFound
       | some (.file _ content _ _ _ _) => .ok content
       | some (.dir _ _ _ _ _) => .error .notAFile) := by
  unfold read_file
  rw [h]

theorem getItem_root (root : FsNode) : getItem root "/" = .ok (some root) := by
  unfold getItem
  rw [if_pos rfl]

theorem getItem_of_walk (root : FsNode) (d : String) (hd : ¬d = "/")
    (res : Except Unit (Option FsNode)) (h : walkItems root (splitPath d) = res) :
    getItem root d = res := by
  unfold getItem
  rw [if_neg hd]
  exact h

/-- **C7**: whenever `write_file` succeeds, an immediately following
`read_file` of the same directory and name returns exactly the written
content. -/
theorem write_then_read (root : FsNode) (d n c now : String) (root' : FsNode)
    (h : write_file root d n c now = .ok root') :
    read_file root' d n = .ok c := by
  have hgo : ∀ (parent parent' : FsNode), writeInDir n c now parent = .ok parent' →
      ∃ dn dc items dp, parent' = .dir dn dc now items dp ∧
        ∃ fn fcr fpm, itemsLookup items n = some (.file fn c fcr now c.length fpm) := by
    intro parent parent' hw
    cases parent with
    | file _ _ _ _ _ _ => exact absurd hw (by simp [writeInDir])
    | dir dn dc dm items dp =>
      have hw1 : (match itemsLookup items n with
          | none => (Except.error FsErr.fileNotFound : Except FsErr FsNode)
          | some (.dir _ _ _ _ _) => Except.error FsErr.notAFile
          | some (.file fn _ fcr _ _ fpm) =>
            Except.ok (FsNode.dir dn dc now
              (itemsReplace items n (.file fn c fcr now c.length fpm)) dp)) =
          Except.ok parent' := hw
      clear hw
      cases hlk : itemsLookup items n with
      | none => rw [hlk] at hw1; exact absurd hw1 (by simp)
      | some child =>
        rw [hlk] at hw1
        cases child with
        | dir _ _ _ _ _ => exact absurd hw1 (by simp)
        | file fn fc fcr fmo fsz fpm =>
          have hw2 : Except.ok (FsNode.dir dn dc now
              (itemsReplace items n (.file fn c fcr now c.length fpm)) dp) =
              (Except.ok parent' : Except FsErr FsNode) := hw1
          injection hw2 with hw2
          refine ⟨dn, dc, _, dp, hw2.symm, fn, fcr, fpm, ?_⟩
          exact itemsLookup_replace_self items n _ (by rw [hlk]; rfl)
  unfold write_file at h
  by_cases hd : d = "/"
  · rw [if_pos hd] at h
    obtain ⟨dn, dc, items, dp, hparent', fn, fcr, fpm, hlk⟩ := hgo root root' h
    rw [hd, read_file_of_getItem_dir root' "/" n dn dc now items dp
      (by rw [hparent']; exact getItem_root _), hlk]
  · rw [if_neg hd] at h
    obtain ⟨target, target', hwalk, hf, hwalk'⟩ :=
      updateAtPath_walk (splitPath d) root (writeInDir n c now) root' h
    obtain ⟨dn, dc, items, dp, hparent', fn, fcr, fpm, hlk⟩ := hgo target target' hf
    rw [hparent'] at hwalk'
    rw [read_file_of_getItem_dir root' d n dn dc now items dp
      (getItem_of_walk root' d hd _ hwalk'), hlk]

theorem write_then_read_witness :
    read_file
      (.dir "/" "t0" "t0"
        (.cons "docs"
          (.dir "docs" "t0" "t1"
            (.cons "a.txt" (.file "a.txt" "yo!" "t0" "t1" 3 "rw-r--r--") .nil)
            "rwxr-xr-x")
          .nil)
        "rwxr-xr-x")
      "/docs" "a.txt" = .ok "yo!" :=
  write_then_read
    (.dir "/" "t0" "t0"
      (.cons "docs"
        (.dir "docs" "t0" "t0"
          (.cons "a.txt" (.file "a.txt" "hi" "t0" "t0" 2 "rw-r--r--") .nil)
          "rwxr-xr-x")
        .nil)
      "rwxr-xr-x")
    "/docs" "a.txt" "yo!" "t1" _ (by rfl)

/-! ### Serialization round trip -/

mutual

theorem node_round_trip : ∀ (node : FsNode),
    (if hasContentKey (FsNode.to_dict node) then FileFromDict (FsNode.to_dict node)
     else DirectoryFromDict (FsNode.to_dict node)) = some node
  | .file n c cr mo sz pm => rfl
  | .dir n cr mo items pm => by
    have hik := items_round_trip items
    have h1 : DirectoryFromDict (FsNode.to_dict (.dir n cr mo items pm)) =
        (match itemsFromDict (itemsToDict items) with
         | some its => some (FsNode.dir n cr mo its pm)
         | none => none) := rfl
    show DirectoryFromDict (FsNode.to_dict (.dir n cr mo items pm)) =
      some (.dir n cr mo items pm)
    rw [h1, hik]

theorem items_round_trip : ∀ (its : FsItems),
    itemsFromDict (itemsToDict its) = some its
  | .nil => rfl
  | .cons k v rest => by
    have hv := node_round_trip v
    have hr := items_round_trip rest
    have h1 : itemsFromDict (itemsToDict (.cons k v rest)) =
        (match (if hasContentKey (FsNode.to_dict v) then FileFromDict (FsNode.to_dict v)
                else DirectoryFromDict (FsNode.to_dict v)),
               itemsFromDict (itemsToDict rest) with
         | some node, some its => some (.cons k node its)
         | _, _ => none) := rfl
    rw [h1, hv, hr]

end

/-- **C8**: serializing any directory tree with `to_dict` (as `save`
does) and deserializing with `Directory.from_dict` (as `load` does)
reproduces the same tree — names, structure, contents, sizes,
timestamps and permissions — and a serialized node is rebuilt as a
`File` exactly when its dict has a `"content"` key. -/
theorem save_load_round_trip :
    (∀ (name created modified : String) (items : FsItems) (permissions : String),
      DirectoryFromDict (FsNode.to_dict (.dir name created modified items permissions)) =
        some (.dir name created modified items permissions)) ∧
    (∀ node : FsNode, hasContentKey (FsNode.to_dict node) = isFile node) := by
  constructor
  · intro name created modified items pm
    exact node_round_trip (.dir name created modified items pm)
  · intro node
    cases node
    · rfl
    · rfl

/-! ### `change_directory` -/

/-- **C9 counterexample**: with an empty root, `change_directory("/a/b",
"..")` returns `"/a"` even though `"/a"` does not name an existing
directory (`get_item` yields `None`); the claimed resolution check does
not happen for the `".."` target. -/
theorem change_directory_dotdot_unresolved :
    change_directory (.dir "/" "t0" "t0" .nil "rwxr-xr-x") "/a/b" ".." = .ok "/a" ∧
    getItem (.dir "/" "t0" "t0" .nil "rwxr-xr-x") "/a" = .ok none := by
  constructor
  · rfl
  · rfl

theorem change_directory_not_dotdot (root : FsNode) (current target : String)
    (ht : ¬target = "..") :
    change_directory root current target =
      (match getItem root (if startsWithSlash target then target
          else joinPath current target) with
       | .error _ => .error .attrError
       | .ok (some (.dir _ _ _ _ _)) =>
         .ok (if startsWithSlash target then target else joinPath current target)
       | .ok _ => .error .dirNotFound) := by
  unfold change_directory
  rw [if_neg ht]

/-- **C9 (amended)**: `change_directory(current, "..")` pops one path
segment from `current` and returns the popped path without resolving it
or checking that it exists (returning `"/"` when `current` has at most
one segment); for any other target, an absolute target is used as-is, a
relative one is joined to `current`, the resulting path is resolved,
and the call fails with `DirectoryNotFound` when it resolves to nothing
or to a `File` (resolution that walks a path segment through a `File`
raises an attribute error instead); on success the new path is
returned; in particular `change_directory("/docs", "..")` returns
`"/"`. -/
theorem change_directory_spec (root : FsNode) (current target : String) :
    (target = ".." → change_directory root current target = .ok (parentOf current)) ∧
    (change_directory root "/docs" ".." = .ok "/") ∧
    (target ≠ ".." →
      (∀ dn dc dm its dp,
        getItem root (if startsWithSlash target then target
            else joinPath current target) = .ok (some (.dir dn dc dm its dp)) →
        change_directory root current target =
          .ok (if startsWithSlash target then target else joinPath current target)) ∧
      (getItem root (if startsWithSlash target then target
          else joinPath current target) = .ok none →
        change_directory root current target = .error .dirNotFound) ∧
      (∀ fn fc fcr fmo fsz fpm,
        getItem root (if startsWithSlash target then target
            else joinPath current target) = .ok (some (.file fn fc fcr fmo fsz fpm)) →
        change_directory root current target = .error .dirNotFound) ∧
      (∀ e, getItem root (if startsWithSlash target then target
          else joinPath current target) = .error e →
        change_directory root current target = .error .attrError)) := by
  refine ⟨?_, ?_, ?_⟩
  · intro ht
    unfold change_directory
    rw [if_pos ht]
  · show change_directory root "/docs" ".." = .ok "/"
    unfold change_directory
    rw [if_pos rfl]
    rfl
  · intro ht
    refine ⟨?_, ?_, ?_, ?_⟩
    · intro dn dc dm its dp h
      rw [change_directory_not_dotdot root current target ht, h]
    · intro h
      rw [change_directory_not_dotdot root current target ht, h]
    · intro fn fc fcr fmo fsz fpm h
      rw [change_directory_not_dotdot root current target ht, h]
    · intro e h
      rw [change_directory_not_dotdot root current target ht, h]

theorem change_directory_spec_witness :
    change_directory (.dir "/" "t0" "t0" .nil "rwxr-xr-x") "/docs" ".." = .ok "/" :=
  (change_directory_spec (.dir "/" "t0" "t0" .nil "rwxr-xr-x") "/docs" "..").1 rfl

end JuanchOS
